import Mathlib

/-!
# rigtorp/CharConv: integer to decimal text and back

A shallow embedding of `include/rigtorp/CharConv.h`.

* A `char` is a raw byte, `Byte = Fin 256`.
* Pointers are natural-number addresses into a memory `List Byte`.
* Machine integers are `Nat`/`Int`; every wrap-around of the source is an explicit `%`.
* The template parameter `T` of `detail::to_chars` / `detail::from_chars` is an `IntType`.
-/

namespace rigtorp

/-- A C++ `char`, seen as the byte it occupies in memory. -/
abbrev Byte := Fin 256

/-- Conversion of an integer expression to `char` on a store (reduction modulo 256). -/
def Byte.ofNat (n : Nat) : Byte := ⟨n % 256, Nat.mod_lt n (by decide)⟩

/-- The values of `std::errc` the header uses; `ok` is the value-initialised `std::errc{}`. -/
inductive errc where
  | ok
  | invalid_argument
  | result_out_of_range
  | value_too_large
  deriving DecidableEq, Repr

/-- Source: `struct to_chars_result { char *ptr; std::errc ec; }`. -/
structure to_chars_result where
  ptr : Nat
  ec : errc
  deriving DecidableEq, Repr

/-- Source: `struct from_chars_result { const char *ptr; std::errc ec; }`. -/
structure from_chars_result where
  ptr : Nat
  ec : errc
  deriving DecidableEq, Repr

/-- The four instantiations of the template parameter `T`. -/
inductive IntType where
  | int32
  | uint32
  | int64
  | uint64
  deriving DecidableEq, Repr

/-- Source: `std::is_signed<T>::value`. -/
def IntType.is_signed : IntType → Bool
  | .int32 => true
  | .uint32 => false
  | .int64 => true
  | .uint64 => false

/-- Source: `std::numeric_limits<std::make_unsigned_t<T>>::digits`, the width in bits. -/
def IntType.digits : IntType → Nat
  | .int32 => 32
  | .uint32 => 32
  | .int64 => 64
  | .uint64 => 64

/-- Source: `std::numeric_limits<T>::min()`. -/
def IntType.min (T : IntType) : Int :=
  if T.is_signed then -(2 ^ (T.digits - 1)) else 0

/-- Source: `std::numeric_limits<T>::max()`. -/
def IntType.max (T : IntType) : Int :=
  if T.is_signed then 2 ^ (T.digits - 1) - 1 else 2 ^ T.digits - 1

/-- The integer `v` is a value of type `T`. -/
def IntType.InRange (T : IntType) (v : Int) : Prop := T.min ≤ v ∧ v ≤ T.max

instance (T : IntType) (v : Int) : Decidable (T.InRange v) := by
  unfold IntType.InRange; infer_instance

namespace detail

/-- Source: `static constexpr uint64_t powers_of_10[]` (entry 0 is `0`, not `1`). -/
def powers_of_10 : List Nat :=
  [0,
   10,
   100,
   1000,
   10000,
   100000,
   1000000,
   10000000,
   100000000,
   1000000000,
   10000000000,
   100000000000,
   1000000000000,
   10000000000000,
   100000000000000,
   1000000000000000,
   10000000000000000,
   100000000000000000,
   1000000000000000000,
   10000000000000000000]

/-- The compiler builtins `__builtin_clz` (`w = 32`) and `__builtin_clzl` (`w = 64`): the number
of zero bits above the most significant set bit of `x` in a word of `w` bits. The bits are
scanned from bit `w - 1` downwards. -/
def clz : Nat → Nat → Nat
  | 0, _ => 0
  | w + 1, x => if x.testBit w then 0 else clz w x + 1

/-- Source: the two overloads `to_chars_len(unsigned int)` and `to_chars_len(unsigned long)`,
whose bodies differ only in the width `digits` (32 or 64) and the matching builtin.
`t` is an `unsigned`, so `t - bool + 1` is computed modulo `2 ^ 32`. -/
def to_chars_len (digits : Nat) (value : Nat) : Nat :=
  let t := ((digits - clz digits (value ||| 1)) * 1233) >>> 12
  (t + 2 ^ 32 - (if value < powers_of_10.getD t 0 then 1 else 0) + 1) % 2 ^ 32

/-- Source: the local `const unsigned t` of `to_chars_len`, the estimate of the digit count
before the correction by the table; `to_chars_len` indexes `powers_of_10` with it. -/
def to_chars_len_t (digits : Nat) (value : Nat) : Nat :=
  ((digits - clz digits (value ||| 1)) * 1233) >>> 12

/-- Source: the `while (uvalue >= 10)` loop of `detail::to_chars`. `first` is the cursor after
the sign, `pos` is a `uint32_t` (so `pos--` wraps modulo `2 ^ 32`). Returns the memory and the
final `uvalue`. -/
def to_chars_loop (mem : List Byte) (first pos uvalue : Nat) : List Byte × Nat :=
  if 10 ≤ uvalue then
    let q := uvalue / 10
    let r := uvalue % 10
    to_chars_loop (mem.set (first + pos) (Byte.ofNat (r + 48))) first
      ((pos + 2 ^ 32 - 1) % 2 ^ 32) q
  else
    (mem, uvalue)
termination_by uvalue
decreasing_by omega

/-- Source: the stores `first[pos--] = r + '0'` that the `while (uvalue >= 10)` loop of
`detail::to_chars` executes: the index `pos` and the byte of each store, in the order of
execution (`to_chars_loop_eq_stores` relates them to `to_chars_loop`). -/
def to_chars_loop_stores (pos uvalue : Nat) : List (Nat × Byte) :=
  if 10 ≤ uvalue then
    (pos, Byte.ofNat (uvalue % 10 + 48)) ::
      to_chars_loop_stores ((pos + 2 ^ 32 - 1) % 2 ^ 32) (uvalue / 10)
  else
    []
termination_by uvalue
decreasing_by omega

/-- Source: the expression `UT(~value) + UT(1)` of `detail::to_chars`, computed in the unsigned
type of width `digits`; the complement `~value` of a two's-complement integer is
`-value - 1`. -/
def negate_unsigned (digits : Nat) (value : Int) : Nat :=
  (((-value - 1) % 2 ^ digits).toNat + 1) % 2 ^ digits

/-- Source: `detail::to_chars<T>(char *first, char *last, T value)`. The memory is passed in
and the memory after the call is returned with the result. `45` is `'-'`, `48` is `'0'`. -/
def to_chars (T : IntType) (mem : List Byte) (first last : Nat) (value : Int) :
    List Byte × to_chars_result :=
  let w := T.digits
  -- `UT uvalue = value;`
  let uvalue₀ : Nat := (value % 2 ^ w).toNat
  -- `if constexpr (is_signed) if (value < 0) if (first != last) { *first++ = '-'; ... }`
  let st : List Byte × Nat × Nat :=
    if T.is_signed = true then
      if value < 0 then
        if first ≠ last then
          (mem.set first 45, first + 1, (((-value - 1) % 2 ^ w).toNat + 1) % 2 ^ w)
        else (mem, first, uvalue₀)
      else (mem, first, uvalue₀)
    else (mem, first, uvalue₀)
  let mem₁ := st.1
  let first₁ := st.2.1
  let uvalue := st.2.2
  let len := to_chars_len w uvalue
  if (last : Int) - (first₁ : Int) < (len : Int) then
    (mem₁, ⟨last, errc.value_too_large⟩)
  else
    let pos := (len + 2 ^ 32 - 1) % 2 ^ 32
    let lp := to_chars_loop mem₁ first₁ pos uvalue
    (lp.1.set first₁ (Byte.ofNat (lp.2 + 48)), ⟨first₁ + len, errc.ok⟩)

/-- Source: the `while (first != last)` loop of `detail::from_chars`, over the bytes still to
be read. `w` is the width of the unsigned accumulator `res`. An error result leaves the loop
early; otherwise the final cursor and accumulator are returned. -/
def from_chars_loop (w : Nat) : List Byte → Nat → Nat → Except from_chars_result (Nat × Nat)
  | [], first, res => .ok (first, res)
  | b :: rest, first, res =>
    -- `const uint8_t c = *first - '0';`
    let c := (b.val + 256 - 48) % 256
    if c > 9 then
      .error ⟨first, errc.invalid_argument⟩
    else if 2 ^ w ≤ res * 10 then
      .error ⟨first, errc.result_out_of_range⟩
    else if 2 ^ w ≤ res * 10 + c then
      .error ⟨first, errc.result_out_of_range⟩
    else
      from_chars_loop w rest (first + 1) (res * 10 + c)

/-- Source: `detail::from_chars<T>(const char *first, const char *last, T &value)`. The byte
range `[first, last)` is the list `s`, so `last = first + s.length`. `value` is the content of
the output variable before the call; its content after the call is returned with the result. -/
def from_chars (T : IntType) (first : Nat) (s : List Byte) (value : Int) :
    Int × from_chars_result :=
  -- `if constexpr (is_signed) if (first != last && *first == '-') { sign = -1; ++first; }`
  let st : Int × Nat × List Byte :=
    if T.is_signed = true then
      match s with
      | b :: rest => if b = 45 then (-1, first + 1, rest) else (1, first, s)
      | [] => (1, first, s)
    else (1, first, s)
  let sign := st.1
  let first₁ := st.2.1
  let rest := st.2.2
  if rest = [] then
    (value, ⟨first₁, errc.invalid_argument⟩)
  else
    match from_chars_loop T.digits rest first₁ 0 with
    | .error r => (value, r)
    | .ok (first₂, res) =>
      if T.is_signed = true then
        -- `__builtin_mul_overflow(res, sign, &tmp)` with `T tmp`
        let tmp : Int := (res : Int) * sign
        if tmp < T.min ∨ T.max < tmp then
          (value, ⟨first₂, errc.result_out_of_range⟩)
        else
          (tmp, ⟨first₂, errc.ok⟩)
      else
        ((res : Int), ⟨first₂, errc.ok⟩)

end detail

/-- Source: the four public overloads `rigtorp::to_chars`, each forwarding to the template. -/
def to_chars (T : IntType) (mem : List Byte) (first last : Nat) (value : Int) :
    List Byte × to_chars_result :=
  detail.to_chars T mem first last value

/-- Source: the four public overloads `rigtorp::from_chars`, each forwarding to the template. -/
def from_chars (T : IntType) (first : Nat) (s : List Byte) (value : Int) :
    Int × from_chars_result :=
  detail.from_chars T first s value

/-! ## Specification-side definitions -/

/-- The divisions of `naive_len`; the first argument bounds their number. -/
def naive_len_aux : Nat → Nat → Nat
  | 0, _ => 1
  | k + 1, n => if n < 10 then 1 else naive_len_aux k (n / 10) + 1

/-- The naive digit count: the number of divisions by 10 until the value reaches zero, with 0
counted as having one digit. It satisfies
`naive_len n = if n < 10 then 1 else naive_len (n / 10) + 1` (`naive_len_eq`). -/
def naive_len (n : Nat) : Nat := naive_len_aux n n

/-- The divisions of `decimal_digits`; the first argument bounds their number. -/
def decimal_digits_aux : Nat → Nat → List Nat
  | 0, n => [n]
  | k + 1, n => if n < 10 then [n] else decimal_digits_aux k (n / 10) ++ [n % 10]

/-- The decimal digits of `n`, most significant first, with `[0]` for `n = 0`. It satisfies
`decimal_digits n = if n < 10 then [n] else decimal_digits (n / 10) ++ [n % 10]`
(`decimal_digits_eq`). -/
def decimal_digits (n : Nat) : List Nat := decimal_digits_aux n n

/-- The number a list of decimal digits (most significant first) denotes. -/
def digits_value (ds : List Nat) : Nat := ds.foldl (fun a d => a * 10 + d) 0

/-- The ASCII byte of a decimal digit. -/
def digit_char (d : Nat) : Byte := Byte.ofNat (d + 48)

/-- The byte `b` is an ASCII decimal digit, `'0'` to `'9'`. -/
def is_digit (b : Byte) : Prop := 48 ≤ b.val ∧ b.val ≤ 57

instance (b : Byte) : Decidable (is_digit b) := by unfold is_digit; infer_instance

/-- The number an ASCII digit string denotes. -/
def text_value (s : List Byte) : Nat := digits_value (s.map fun b => b.val - 48)

/-- The memory `mem` with the bytes `bs` stored from address `p` on. -/
def write_at (mem : List Byte) (p : Nat) (bs : List Byte) : List Byte :=
  mem.take p ++ bs ++ mem.drop (p + bs.length)

/-- The accumulator of the decoder after the digit bytes `s`, started at `res`. -/
def accumulate (res : Nat) (s : List Byte) : Nat :=
  s.foldl (fun a b => a * 10 + (b.val - 48)) res

/-- The bytes of the optional sign: `"-"` or nothing. -/
def sign_bytes (neg : Bool) : List Byte := if neg then [45] else []

/-- The factor `sign` of the decoder: `-1` after a consumed `'-'`, else `1`. -/
def sign_of (neg : Bool) : Int := if neg then -1 else 1

/-- The largest number of bytes the decimal text of a value of the type takes. -/
def max_text_length : IntType → Nat
  | .int32 => 11
  | .uint32 => 10
  | .int64 => 20
  | .uint64 => 20

/-- The canonical decimal text of the integer `v`: a `'-'` exactly when `v < 0`, then the
digits of `|v|` most significant first. -/
def decimal_text (v : Int) : List Byte :=
  (if v < 0 then [(45 : Byte)] else []) ++ (decimal_digits v.natAbs).map digit_char

end rigtorp

namespace rigtorp

open detail

/-! ## The digit-length estimator -/

theorem lor_one_eq (v : Nat) : v ||| 1 = 2 * (v / 2) + 1 := by
  apply Nat.eq_of_testBit_eq
  intro i
  rw [Nat.testBit_or]
  cases i with
  | zero => simp [Nat.testBit_zero]; omega
  | succ i =>
    have e : (2 * (v / 2) + 1) / 2 = v / 2 := by omega
    simp [Nat.testBit_succ, e]

/-- For a non-zero `x` that fits in `w` bits, `w - clz w x` is the bit length of `x`. -/
theorem clz_spec (w x : Nat) (h0 : 0 < x) (hw : x < 2 ^ w) :
    clz w x < w ∧ 2 ^ (w - clz w x - 1) ≤ x ∧ x < 2 ^ (w - clz w x) := by
  induction w with
  | zero => simp at hw; omega
  | succ w ih =>
    unfold clz
    by_cases hb : x.testBit w = true
    · simp [hb]
      exact ⟨Nat.testBit_implies_ge hb, hw⟩
    · simp only [hb]
      have hlt : x < 2 ^ w := by
        apply Nat.lt_pow_two_of_testBit
        intro i hi
        rcases Nat.eq_or_lt_of_le hi with h | h
        · subst h; simpa using hb
        · apply Nat.testBit_lt_two_pow
          calc x < 2 ^ (w + 1) := hw
            _ ≤ 2 ^ i := Nat.pow_le_pow_right (by decide) h
      obtain ⟨h1, h2, h3⟩ := ih hlt
      have e : w + 1 - (clz w x + 1) = w - clz w x := by omega
      simp only [Bool.false_eq_true, if_false, e]
      exact ⟨by omega, h2, h3⟩

theorem naive_len_aux_eq (k : Nat) : ∀ (j n : Nat), n ≤ k → n ≤ j →
    naive_len_aux k n = naive_len_aux j n := by
  induction k with
  | zero =>
    intro j n h _
    have : n = 0 := by omega
    subst this
    cases j <;> simp [naive_len_aux]
  | succ k ih =>
    intro j n hk hj
    by_cases h : n < 10
    · cases j <;> simp [naive_len_aux, h]
    · cases j with
      | zero => omega
      | succ j =>
        simp only [naive_len_aux, h, if_false]
        rw [ih j (n / 10) (by omega) (by omega)]

/-- The recursion equation of the naive digit count. -/
theorem naive_len_eq (n : Nat) :
    naive_len n = if n < 10 then 1 else naive_len (n / 10) + 1 := by
  unfold naive_len
  cases n with
  | zero => simp [naive_len_aux]
  | succ n =>
    by_cases h : n + 1 < 10
    · simp [naive_len_aux, h]
    · simp only [naive_len_aux, h, if_false]
      rw [naive_len_aux_eq n ((n + 1) / 10) ((n + 1) / 10) (by omega) (by omega)]

theorem decimal_digits_aux_eq (k : Nat) : ∀ (j n : Nat), n ≤ k → n ≤ j →
    decimal_digits_aux k n = decimal_digits_aux j n := by
  induction k with
  | zero =>
    intro j n h _
    have : n = 0 := by omega
    subst this
    cases j <;> simp [decimal_digits_aux]
  | succ k ih =>
    intro j n hk hj
    by_cases h : n < 10
    · cases j <;> simp [decimal_digits_aux, h]
    · cases j with
      | zero => omega
      | succ j =>
        simp only [decimal_digits_aux, h, if_false]
        rw [ih j (n / 10) (by omega) (by omega)]

/-- The recursion equation of the decimal digits. -/
theorem decimal_digits_eq (n : Nat) :
    decimal_digits n = if n < 10 then [n] else decimal_digits (n / 10) ++ [n % 10] := by
  unfold decimal_digits
  cases n with
  | zero => simp [decimal_digits_aux]
  | succ n =>
    by_cases h : n + 1 < 10
    · simp [decimal_digits_aux, h]
    · simp only [decimal_digits_aux, h, if_false]
      rw [decimal_digits_aux_eq n ((n + 1) / 10) ((n + 1) / 10) (by omega) (by omega)]

theorem one_le_ten_pow (d : Nat) : 1 ≤ 10 ^ d := Nat.one_le_pow _ _ (by decide)

theorem naive_len_of_bounds (d : Nat) : ∀ n : Nat, (d = 0 ∨ 10 ^ d ≤ n) → n < 10 ^ (d + 1) →
    naive_len n = d + 1 := by
  induction d with
  | zero =>
    intro n _ h
    rw [naive_len_eq]; simp at h; simp [h]
  | succ d ih =>
    intro n h1 h2
    have h1 : 10 ^ (d + 1) ≤ n := by
      rcases h1 with h | h
      · omega
      · exact h
    have h10 : 10 ≤ n := by
      have := one_le_ten_pow d
      rw [Nat.pow_succ] at h1
      omega
    rw [naive_len_eq]
    have hn : ¬ n < 10 := by omega
    simp only [hn, if_false]
    rw [ih (n / 10)]
    · by_cases hd : d = 0
      · left; exact hd
      · right
        rw [Nat.le_div_iff_mul_le (by decide)]
        rw [Nat.pow_succ] at h1; exact h1
    · rw [Nat.div_lt_iff_lt_mul (by decide)]
      rw [Nat.pow_succ] at h2; exact h2

theorem eq_naive_len (k n : Nat) (hk : 0 < k) (h1 : k = 1 ∨ 10 ^ (k - 1) ≤ n)
    (h2 : n < 10 ^ k) : k = naive_len n := by
  obtain ⟨d, rfl⟩ : ∃ d, k = d + 1 := ⟨k - 1, by omega⟩
  rw [naive_len_of_bounds d n _ h2]
  rcases h1 with h | h
  · left; omega
  · right; simpa using h

theorem naive_len_eq_log (n : Nat) (hn : 1 ≤ n) : naive_len n = Nat.log 10 n + 1 :=
  naive_len_of_bounds (Nat.log 10 n) n (Or.inr (Nat.pow_log_le_self 10 (by omega)))
    (Nat.lt_pow_succ_log_self (by decide) n)

theorem naive_len_pos (n : Nat) : 1 ≤ naive_len n := by
  rw [naive_len_eq]; split <;> omega

theorem naive_len_le (k n : Nat) (hk : 1 ≤ k) (h : n < 10 ^ k) : naive_len n ≤ k := by
  rcases Nat.eq_zero_or_pos n with rfl | hn
  · rw [naive_len_eq]; simpa using hk
  · rw [naive_len_eq_log n hn]
    have := Nat.log_lt_of_lt_pow (by omega) h
    omega

/-- The estimator agrees with the naive digit count on every value of either width. -/
theorem to_chars_len_eq (w : Nat) (hw : w = 32 ∨ w = 64) (v : Nat) (hv : v < 2 ^ w) :
    to_chars_len w v = naive_len v := by
  have hx : v ||| 1 = 2 * (v / 2) + 1 := lor_one_eq v
  have hx0 : 0 < v ||| 1 := by omega
  have hxw : v ||| 1 < 2 ^ w := by
    rcases hw with rfl | rfl <;> norm_num at hv ⊢ <;> omega
  obtain ⟨h1, h2, h3⟩ := clz_spec w (v ||| 1) hx0 hxw
  unfold to_chars_len
  generalize hb : w - clz w (v ||| 1) = b at h2 h3 ⊢
  have hb1 : 1 ≤ b := by omega
  have hb2 : b ≤ 64 := by rcases hw with rfl | rfl <;> omega
  clear hb h1 hxw
  rw [hx] at h2 h3
  clear hx hx0
  interval_cases b <;> norm_num [Nat.shiftRight_eq_div_pow, powers_of_10] at h2 h3 ⊢ <;>
    (try split_ifs) <;> apply eq_naive_len <;> first | omega | (norm_num; omega)

/-- C6: for every 32-bit unsigned value `v`, `to_chars_len(v)` is the naive decimal digit
count of `v` (divisions by 10 until zero, 0 counting as one digit): it is 1 for `v = 0` and
`floor(log10 v) + 1` for `v ≥ 1`. -/
theorem C6_to_chars_len_uint32 (v : Nat) (hv : v < 2 ^ 32) :
    to_chars_len 32 v = naive_len v ∧
    (v = 0 → to_chars_len 32 v = 1) ∧
    (1 ≤ v → to_chars_len 32 v = Nat.log 10 v + 1) := by
  have h := to_chars_len_eq 32 (Or.inl rfl) v hv
  refine ⟨h, ?_, ?_⟩
  · rintro rfl
    rw [h, naive_len_eq]; simp
  · intro h1
    rw [h, naive_len_eq_log v h1]

/-- C6 at `UINT32_MAX`. -/
theorem C6_to_chars_len_uint32_witness :
    4294967295 < 2 ^ 32 ∧
    (to_chars_len 32 4294967295 = naive_len 4294967295 ∧
     (4294967295 = 0 → to_chars_len 32 4294967295 = 1) ∧
     (1 ≤ 4294967295 → to_chars_len 32 4294967295 = Nat.log 10 4294967295 + 1)) :=
  ⟨by norm_num, C6_to_chars_len_uint32 4294967295 (by norm_num)⟩

/-- C7: for every 64-bit unsigned value `v`, `to_chars_len(v)` is the naive decimal digit
count of `v`, a result between 1 and 20. -/
theorem C7_to_chars_len_uint64 (v : Nat) (hv : v < 2 ^ 64) :
    to_chars_len 64 v = naive_len v ∧ 1 ≤ to_chars_len 64 v ∧ to_chars_len 64 v ≤ 20 := by
  have h := to_chars_len_eq 64 (Or.inr rfl) v hv
  refine ⟨h, ?_, ?_⟩
  · rw [h]; exact naive_len_pos v
  · rw [h]
    apply naive_len_le 20 v (by decide)
    calc v < 2 ^ 64 := hv
      _ ≤ 10 ^ 20 := by norm_num

/-- C7 at `UINT64_MAX`, a value above `10 ^ 19`. -/
theorem C7_to_chars_len_uint64_witness :
    18446744073709551615 < 2 ^ 64 ∧
    (to_chars_len 64 18446744073709551615 = naive_len 18446744073709551615 ∧
     1 ≤ to_chars_len 64 18446744073709551615 ∧ to_chars_len 64 18446744073709551615 ≤ 20) :=
  ⟨by norm_num, C7_to_chars_len_uint64 18446744073709551615 (by norm_num)⟩

end rigtorp

namespace rigtorp

open detail

/-! ## Memory writes -/

theorem length_write_at (mem : List Byte) (p : Nat) (bs : List Byte)
    (h : p + bs.length ≤ mem.length) : (write_at mem p bs).length = mem.length := by
  simp [write_at]; omega

theorem getElem?_write_at (mem : List Byte) (p : Nat) (bs : List Byte)
    (h : p + bs.length ≤ mem.length) (i : Nat) :
    (write_at mem p bs)[i]? =
      if i < p then mem[i]? else if i < p + bs.length then bs[i - p]? else mem[i]? := by
  unfold write_at
  have hp : (List.take p mem).length = p := by simp; omega
  by_cases h1 : i < p
  · rw [if_pos h1, List.append_assoc, List.getElem?_append_left (by omega),
      List.getElem?_take_of_lt h1]
  · rw [if_neg h1, List.append_assoc, List.getElem?_append_right (by omega), hp]
    by_cases h2 : i < p + bs.length
    · rw [if_pos h2, List.getElem?_append_left (by omega)]
    · rw [if_neg h2, List.getElem?_append_right (by omega), List.getElem?_drop]
      congr 1; omega

theorem set_eq_write_at (mem : List Byte) (p : Nat) (b : Byte) (h : p < mem.length) :
    mem.set p b = write_at mem p [b] := by
  apply List.ext_getElem?
  intro i
  rw [getElem?_write_at mem p [b] (by simpa using h), List.getElem?_set]
  by_cases h1 : p = i
  · subst h1; simp [h]
  · simp only [h1, if_false, List.length_singleton]
    by_cases h2 : i < p
    · simp [h2]
    · have : ¬ i < p + 1 := by omega
      simp [h2, this]

theorem write_at_write_at_after (mem : List Byte) (p : Nat) (xs ys : List Byte)
    (h : p + xs.length + ys.length ≤ mem.length) :
    write_at (write_at mem p xs) (p + xs.length) ys = write_at mem p (xs ++ ys) := by
  apply List.ext_getElem?
  intro i
  have hl := length_write_at mem p xs (by omega)
  rw [getElem?_write_at _ _ _ (by omega), getElem?_write_at _ _ _ (by omega),
    getElem?_write_at _ _ _ (by simp; omega)]
  simp only [List.length_append]
  by_cases h1 : i < p
  · have : i < p + xs.length := by omega
    simp [h1, this]
  · by_cases h2 : i < p + xs.length
    · have h4 : i < p + (xs.length + ys.length) := by omega
      simp [h1, h2, h4, List.getElem?_append_left (show i - p < xs.length by omega)]
    · by_cases h3 : i < p + xs.length + ys.length
      · have h4 : i < p + (xs.length + ys.length) := by omega
        simp only [h1, h2, h3, h4, if_true, if_false]
        rw [List.getElem?_append_right (by omega)]
        congr 1; omega
      · have h4 : ¬ i < p + (xs.length + ys.length) := by omega
        simp [h1, h2, h3, h4]

theorem write_at_write_at_before (mem : List Byte) (p : Nat) (xs ys : List Byte)
    (h : p + xs.length + ys.length ≤ mem.length) :
    write_at (write_at mem (p + xs.length) ys) p xs = write_at mem p (xs ++ ys) := by
  apply List.ext_getElem?
  intro i
  have hl := length_write_at mem (p + xs.length) ys (by omega)
  rw [getElem?_write_at _ _ _ (by omega), getElem?_write_at _ _ _ (by omega),
    getElem?_write_at _ _ _ (by simp; omega)]
  simp only [List.length_append]
  by_cases h1 : i < p
  · have h2 : i < p + xs.length := by omega
    simp [h1, h2]
  · by_cases h2 : i < p + xs.length
    · have h4 : i < p + (xs.length + ys.length) := by omega
      simp [h1, h2, h4, List.getElem?_append_left (show i - p < xs.length by omega)]
    · by_cases h3 : i < p + xs.length + ys.length
      · have h4 : i < p + (xs.length + ys.length) := by omega
        simp only [h1, h2, h3, h4, if_true, if_false]
        rw [List.getElem?_append_right (by omega)]
        congr 1; omega
      · have h4 : ¬ i < p + (xs.length + ys.length) := by omega
        simp [h1, h2, h3, h4]

end rigtorp

namespace rigtorp

open detail

/-! ## Decimal digits and the digit loop of `to_chars` -/

theorem decimal_digits_length (n : Nat) : (decimal_digits n).length = naive_len n := by
  induction n using Nat.strong_induction_on with
  | _ n ih =>
    rw [decimal_digits_eq, naive_len_eq]
    by_cases h : n < 10
    · simp [h]
    · simp only [h, if_false, List.length_append, List.length_singleton]
      rw [ih (n / 10) (by omega)]

theorem decimal_digits_lt (n : Nat) : ∀ d ∈ decimal_digits n, d < 10 := by
  induction n using Nat.strong_induction_on with
  | _ n ih =>
    rw [decimal_digits_eq]
    by_cases h : n < 10
    · simp [h]
    · simp only [h, if_false, List.mem_append, List.mem_singleton]
      rintro d (hd | rfl)
      · exact ih (n / 10) (by omega) d hd
      · omega

theorem digits_value_append (xs : List Nat) (d : Nat) :
    digits_value (xs ++ [d]) = digits_value xs * 10 + d := by
  simp [digits_value, List.foldl_append]

theorem digits_value_decimal_digits (n : Nat) : digits_value (decimal_digits n) = n := by
  induction n using Nat.strong_induction_on with
  | _ n ih =>
    rw [decimal_digits_eq]
    by_cases h : n < 10
    · simp [h, digits_value]
    · simp only [h, if_false]
      rw [digits_value_append, ih (n / 10) (by omega)]
      omega

/-- No leading zero: the first digit is `0` only for the number `0`. -/
theorem decimal_digits_head (n : Nat) :
    ∃ d ds, decimal_digits n = d :: ds ∧ d < 10 ∧ (d = 0 → n = 0) := by
  induction n using Nat.strong_induction_on with
  | _ n ih =>
    rw [decimal_digits_eq]
    by_cases h : n < 10
    · exact ⟨n, [], by simp [h], h, fun h => h⟩
    · obtain ⟨d, ds, e, hd, h0⟩ := ih (n / 10) (by omega)
      refine ⟨d, ds ++ [n % 10], by simp [h, e], hd, ?_⟩
      intro hd0
      have := h0 hd0
      omega

theorem write_at_nil (mem : List Byte) (p : Nat) : write_at mem p [] = mem := by
  simp [write_at]

theorem to_chars_loop_spec (first : Nat) : ∀ (u : Nat) (mem : List Byte) (pos : Nat),
    pos + 1 = naive_len u → pos < 2 ^ 32 → first + pos < mem.length →
    ∃ d ds, decimal_digits u = d :: ds ∧ d < 10 ∧
      to_chars_loop mem first pos u = (write_at mem (first + 1) (ds.map digit_char), d) := by
  intro u
  induction u using Nat.strong_induction_on with
  | _ u ih =>
    intro mem pos hpos h32 hmem
    rw [to_chars_loop, decimal_digits_eq]
    by_cases h : u < 10
    · have h' : ¬ 10 ≤ u := by omega
      exact ⟨u, [], by simp [h], h, by simp [h', write_at_nil]⟩
    · have h' : 10 ≤ u := by omega
      rw [naive_len_eq] at hpos
      simp only [h, if_false] at hpos
      have hp : (pos + 2 ^ 32 - 1) % 2 ^ 32 = pos - 1 := by
        have := naive_len_pos (u / 10)
        norm_num at h32 ⊢
        omega
      simp only [h', if_true, h, if_false, hp]
      have hmem1 : first + (pos - 1) < (mem.set (first + pos) (Byte.ofNat (u % 10 + 48))).length := by
        rw [List.length_set]; omega
      obtain ⟨d, ds, e, hd, hl⟩ := ih (u / 10) (by omega) _ (pos - 1) (by omega) (by omega) hmem1
      have hlen : ds.length + 1 = pos := by
        have := decimal_digits_length (u / 10)
        rw [e] at this
        simp at this
        omega
      refine ⟨d, ds ++ [u % 10], by simp [e], hd, ?_⟩
      rw [hl, set_eq_write_at _ _ _ hmem]
      have e2 : first + pos = first + 1 + (ds.map digit_char).length := by simp; omega
      rw [e2, write_at_write_at_before _ _ _ _ (by simp; omega)]
      simp [digit_char]

theorem length_decimal_text (v : Int) :
    (decimal_text v).length = (if v < 0 then 1 else 0) + naive_len v.natAbs := by
  unfold decimal_text
  split
  · simp [decimal_digits_length]; omega
  · simp [decimal_digits_length]


theorem IntType.digits_cases (T : IntType) : T.digits = 32 ∨ T.digits = 64 := by
  cases T <;> simp [IntType.digits]

/-- The digit loop followed by the store of the leading digit writes the decimal digits of
`n` at `first`. -/
theorem to_chars_digits_spec (mem : List Byte) (first n : Nat) (h32 : naive_len n < 2 ^ 32)
    (hmem : first + naive_len n ≤ mem.length) :
    ((to_chars_loop mem first ((naive_len n + 2 ^ 32 - 1) % 2 ^ 32) n).1.set first
        (Byte.ofNat ((to_chars_loop mem first ((naive_len n + 2 ^ 32 - 1) % 2 ^ 32) n).2 + 48))) =
      write_at mem first ((decimal_digits n).map digit_char) := by
  have h1 := naive_len_pos n
  have hp : (naive_len n + 2 ^ 32 - 1) % 2 ^ 32 = naive_len n - 1 := by
    norm_num at h32 ⊢
    omega
  rw [hp]
  obtain ⟨d, ds, e, hd, hl⟩ := to_chars_loop_spec first n mem (naive_len n - 1) (by omega)
    (by omega) (by omega)
  have hlen : ds.length + 1 = naive_len n := by
    rw [← decimal_digits_length, e]; simp
  rw [hl, e]
  simp only [List.map_cons]
  have hw : (write_at mem (first + 1) (ds.map digit_char)).length = mem.length :=
    length_write_at _ _ _ (by simp; omega)
  rw [set_eq_write_at _ _ _ (by rw [hw]; omega)]
  have := write_at_write_at_before mem first [digit_char d] (ds.map digit_char)
    (by simp; omega)
  simpa [digit_char] using this

theorem natAbs_lt_of_inRange (T : IntType) (v : Int) (hv : T.InRange v) :
    v.natAbs < 2 ^ T.digits := by
  cases T <;> simp [IntType.InRange, IntType.min, IntType.max, IntType.is_signed,
    IntType.digits] at hv ⊢ <;> omega

theorem naive_len_lt_of_inRange (T : IntType) (v : Int) (hv : T.InRange v) :
    naive_len v.natAbs ≤ 20 := by
  apply naive_len_le 20 _ (by decide)
  have := natAbs_lt_of_inRange T v hv
  calc v.natAbs < 2 ^ T.digits := this
    _ ≤ 2 ^ 64 := Nat.pow_le_pow_right (by decide) (by rcases T.digits_cases with h | h <;> omega)
    _ ≤ 10 ^ 20 := by norm_num

end rigtorp

namespace rigtorp

open detail

/-! ## The encoder `to_chars` -/

/-- What `to_chars` does when the text fits. -/
theorem to_chars_ok (T : IntType) (mem : List Byte) (first last : Nat) (v : Int)
    (hv : T.InRange v) (hl : last ≤ mem.length)
    (hcap : first + (decimal_text v).length ≤ last) :
    detail.to_chars T mem first last v =
      (write_at mem first (decimal_text v), ⟨first + (decimal_text v).length, errc.ok⟩) := by
  have h20 := naive_len_lt_of_inRange T v hv
  have hlen := to_chars_len_eq T.digits T.digits_cases v.natAbs (natAbs_lt_of_inRange T v hv)
  rw [length_decimal_text] at hcap ⊢
  have h1 := naive_len_pos v.natAbs
  by_cases hneg : v < 0
  · have hs : T.is_signed = true := by
      cases T <;> simp [IntType.InRange, IntType.min, IntType.is_signed] at hv ⊢ <;> omega
    have hne : first ≠ last := by simp [hneg] at hcap; omega
    have hu : (((-v - 1) % 2 ^ T.digits).toNat + 1) % 2 ^ T.digits = v.natAbs := by
      cases T <;> simp [IntType.InRange, IntType.min, IntType.max, IntType.is_signed,
        IntType.digits] at hv hs ⊢ <;> omega
    simp only [detail.to_chars, hs, hneg, hne, if_true, ne_eq, not_false_eq_true, hu, hlen]
    simp only [hneg, if_true] at hcap
    have hc : ¬ ((last : Int) - ((first + 1 : Nat) : Int) < (naive_len v.natAbs : Int)) := by
      omega
    rw [if_neg hc]
    have hm : first < mem.length := by omega
    rw [to_chars_digits_spec _ _ _ (by omega) (by rw [List.length_set]; omega),
      set_eq_write_at _ _ _ hm]
    have := write_at_write_at_after mem first [45] ((decimal_digits v.natAbs).map digit_char)
      (by simp [decimal_digits_length]; omega)
    simp only [List.length_singleton] at this
    rw [this]
    simp [decimal_text, hneg]
    omega
  · have hu : (v % 2 ^ T.digits).toNat = v.natAbs := by
      cases T <;> simp [IntType.InRange, IntType.min, IntType.max, IntType.is_signed,
        IntType.digits] at hv ⊢ <;> omega
    have hst : (if T.is_signed = true then
        if v < 0 then
          if first ≠ last then
            (mem.set first 45, first + 1, (((-v - 1) % 2 ^ T.digits).toNat + 1) % 2 ^ T.digits)
          else (mem, first, (v % 2 ^ T.digits).toNat)
        else (mem, first, (v % 2 ^ T.digits).toNat)
      else (mem, first, (v % 2 ^ T.digits).toNat)) = (mem, first, v.natAbs) := by
      simp [hneg, hu]
    simp only [detail.to_chars, hst, hlen]
    simp only [hneg, if_false] at hcap
    have hc : ¬ ((last : Int) - (first : Int) < (naive_len v.natAbs : Int)) := by
      omega
    rw [if_neg hc]
    rw [to_chars_digits_spec _ _ _ (by omega) (by omega)]
    simp [decimal_text, hneg]

/-- What `to_chars` does when the text does not fit: the only possible write is the sign. -/
theorem to_chars_fail (T : IntType) (mem : List Byte) (first last : Nat) (v : Int)
    (hv : T.InRange v)
    (hcap : last < first + (decimal_text v).length) :
    detail.to_chars T mem first last v =
      (if v < 0 ∧ first ≠ last then mem.set first 45 else mem,
       ⟨last, errc.value_too_large⟩) := by
  have hlen := to_chars_len_eq T.digits T.digits_cases v.natAbs (natAbs_lt_of_inRange T v hv)
  rw [length_decimal_text] at hcap
  by_cases hneg : v < 0
  · have hs : T.is_signed = true := by
      cases T <;> simp [IntType.InRange, IntType.min, IntType.is_signed] at hv ⊢ <;> omega
    simp only [hneg, if_true] at hcap
    by_cases hne : first = last
    · have hst : (if first ≠ last then
            (mem.set first 45, first + 1, (((-v - 1) % 2 ^ T.digits).toNat + 1) % 2 ^ T.digits)
          else (mem, first, (v % 2 ^ T.digits).toNat)) = (mem, first, (v % 2 ^ T.digits).toNat) := by
        simp [hne]
      have hu : (v % 2 ^ T.digits).toNat < 2 ^ T.digits := by
        cases T <;> simp [IntType.digits] <;> omega
      have hlen' := to_chars_len_eq T.digits T.digits_cases _ hu
      have h1 := naive_len_pos (v % 2 ^ T.digits).toNat
      simp only [detail.to_chars, hs, hneg, if_true, hst, hlen']
      have hc : ((last : Int) - (first : Int) < (naive_len (v % 2 ^ T.digits).toNat : Int)) := by
        omega
      rw [if_pos hc]
      simp [hne]
    · have hu : (((-v - 1) % 2 ^ T.digits).toNat + 1) % 2 ^ T.digits = v.natAbs := by
        cases T <;> simp [IntType.InRange, IntType.min, IntType.max, IntType.is_signed,
          IntType.digits] at hv hs ⊢ <;> omega
      simp only [detail.to_chars, hs, hneg, hne, if_true, ne_eq, not_false_eq_true, hu, hlen]
      have hc : ((last : Int) - ((first + 1 : Nat) : Int) < (naive_len v.natAbs : Int)) := by
        omega
      rw [if_pos hc]
      simp
  · have hu : (v % 2 ^ T.digits).toNat = v.natAbs := by
      cases T <;> simp [IntType.InRange, IntType.min, IntType.max, IntType.is_signed,
        IntType.digits] at hv ⊢ <;> omega
    have hst : (if T.is_signed = true then
        if v < 0 then
          if first ≠ last then
            (mem.set first 45, first + 1, (((-v - 1) % 2 ^ T.digits).toNat + 1) % 2 ^ T.digits)
          else (mem, first, (v % 2 ^ T.digits).toNat)
        else (mem, first, (v % 2 ^ T.digits).toNat)
      else (mem, first, (v % 2 ^ T.digits).toNat)) = (mem, first, v.natAbs) := by
      simp [hneg, hu]
    simp only [detail.to_chars, hst, hlen]
    simp only [hneg, if_false] at hcap
    have hc : ((last : Int) - (first : Int) < (naive_len v.natAbs : Int)) := by
      omega
    rw [if_pos hc]
    simp [hneg]

theorem slice_write_at (mem : List Byte) (p : Nat) (bs : List Byte)
    (h : p + bs.length ≤ mem.length) :
    ((write_at mem p bs).drop p).take bs.length = bs := by
  unfold write_at
  have hp : (List.take p mem).length = p := by simp; omega
  rw [List.append_assoc, List.drop_left' hp, List.take_left]

end rigtorp

namespace rigtorp

open detail

/-! ## The decoder `from_chars` -/

theorem text_value_eq (s : List Byte) : text_value s = accumulate 0 s := by
  simp [text_value, digits_value, accumulate, List.foldl_map]

theorem accumulate_cons (res : Nat) (b : Byte) (s : List Byte) :
    accumulate res (b :: s) = accumulate (res * 10 + (b.val - 48)) s := rfl

theorem le_accumulate (s : List Byte) : ∀ res, res ≤ accumulate res s := by
  induction s with
  | nil => intro res; exact Nat.le_refl _
  | cons b s ih =>
    intro res
    rw [accumulate_cons]
    exact le_trans (by omega) (ih _)

theorem accumulate_append (s t : List Byte) (res : Nat) :
    accumulate res (s ++ t) = accumulate (accumulate res s) t := by
  simp [accumulate, List.foldl_append]

/-- The byte test of the decoder: `uint8_t(b - '0') > 9` exactly when `b` is not a digit. -/
theorem digit_test (b : Byte) :
    ((b.val + 256 - 48) % 256 > 9 ↔ ¬ is_digit b) ∧
    (is_digit b → (b.val + 256 - 48) % 256 = b.val - 48) := by
  have := b.isLt
  unfold is_digit
  constructor
  · omega
  · omega

theorem from_chars_loop_digit (w : Nat) (b : Byte) (rest : List Byte) (first res : Nat)
    (hb : is_digit b) (h : res * 10 + (b.val - 48) < 2 ^ w) :
    from_chars_loop w (b :: rest) first res =
      from_chars_loop w rest (first + 1) (res * 10 + (b.val - 48)) := by
  have h1 := (digit_test b).2 hb
  have h2 : ¬ (b.val + 256 - 48) % 256 > 9 := by rw [(digit_test b).1]; simpa using hb
  have h3 : ¬ 2 ^ w ≤ res * 10 := by omega
  have h4 : ¬ 2 ^ w ≤ res * 10 + (b.val - 48) := by omega
  rw [from_chars_loop]
  rw [if_neg h2, h1, if_neg h3, if_neg h4]

theorem from_chars_loop_nondigit (w : Nat) (b : Byte) (rest : List Byte) (first res : Nat)
    (hb : ¬ is_digit b) :
    from_chars_loop w (b :: rest) first res = .error ⟨first, errc.invalid_argument⟩ := by
  have h2 : (b.val + 256 - 48) % 256 > 9 := (digit_test b).1.2 hb
  rw [from_chars_loop]
  rw [if_pos h2]

theorem from_chars_loop_overflow (w : Nat) (b : Byte) (rest : List Byte) (first res : Nat)
    (hb : is_digit b) (h : 2 ^ w ≤ res * 10 + (b.val - 48)) :
    from_chars_loop w (b :: rest) first res = .error ⟨first, errc.result_out_of_range⟩ := by
  have h1 := (digit_test b).2 hb
  have h2 : ¬ (b.val + 256 - 48) % 256 > 9 := by rw [(digit_test b).1]; simpa using hb
  rw [from_chars_loop]
  rw [if_neg h2, h1, if_pos h]
  split <;> rfl

/-- A prefix of digit bytes that accumulates without overflow is consumed. -/
theorem from_chars_loop_append (w : Nat) (ds : List Byte) : ∀ (rest : List Byte)
    (first res : Nat), (∀ b ∈ ds, is_digit b) → accumulate res ds < 2 ^ w →
    from_chars_loop w (ds ++ rest) first res =
      from_chars_loop w rest (first + ds.length) (accumulate res ds) := by
  induction ds with
  | nil => intro rest first res _ _; rfl
  | cons b ds ih =>
    intro rest first res hd hacc
    rw [accumulate_cons] at hacc
    have hb : is_digit b := hd b (List.mem_cons_self _ _)
    have hle := le_accumulate ds (res * 10 + (b.val - 48))
    rw [List.cons_append, from_chars_loop_digit w b _ first res hb (by omega),
      ih rest (first + 1) _ (fun b hb => hd b (List.mem_cons_of_mem _ hb)) hacc,
      accumulate_cons, List.length_cons]
    congr 1; omega

/-- The loop runs to the end exactly on digit bytes whose accumulated value fits. -/
theorem from_chars_loop_ok_iff (w : Nat) (s : List Byte) : ∀ (first res p r : Nat),
    res < 2 ^ w →
    (from_chars_loop w s first res = .ok (p, r) ↔
      (∀ b ∈ s, is_digit b) ∧ accumulate res s < 2 ^ w ∧ p = first + s.length ∧
        r = accumulate res s) := by
  induction s with
  | nil =>
    intro first res p r hres
    simp only [from_chars_loop, accumulate, List.foldl_nil, List.length_nil, Nat.add_zero,
      List.not_mem_nil, false_implies, implies_true, true_and, Except.ok.injEq, Prod.mk.injEq]
    constructor
    · rintro ⟨rfl, rfl⟩; exact ⟨hres, rfl, rfl⟩
    · rintro ⟨_, rfl, rfl⟩; exact ⟨rfl, rfl⟩
  | cons b s ih =>
    intro first res p r hres
    by_cases hb : is_digit b
    · by_cases h : res * 10 + (b.val - 48) < 2 ^ w
      · rw [from_chars_loop_digit w b s first res hb h, ih _ _ _ _ h, accumulate_cons]
        simp only [List.mem_cons, forall_eq_or_imp, hb, true_and, List.length_cons]
        constructor
        · rintro ⟨h1, h2, h3, h4⟩; exact ⟨h1, h2, by omega, h4⟩
        · rintro ⟨h1, h2, h3, h4⟩; exact ⟨h1, h2, by omega, h4⟩
      · rw [from_chars_loop_overflow w b s first res hb (by omega)]
        have hle := le_accumulate s (res * 10 + (b.val - 48))
        rw [accumulate_cons]
        constructor
        · intro h; cases h
        · rintro ⟨_, h2, _⟩; omega
    · rw [from_chars_loop_nondigit w b s first res hb]
      constructor
      · intro h; cases h
      · rintro ⟨h1, _⟩; exact absurd (h1 b (List.mem_cons_self _ _)) hb

/-- An error of the loop is one of the two decoder errors, at a byte of the input. -/
theorem from_chars_loop_error (w : Nat) (s : List Byte) : ∀ (first res : Nat)
    (e : from_chars_result), from_chars_loop w s first res = .error e →
    (e.ec = errc.invalid_argument ∨ e.ec = errc.result_out_of_range) ∧
      first ≤ e.ptr ∧ e.ptr < first + s.length := by
  induction s with
  | nil => intro first res e h; simp [from_chars_loop] at h
  | cons b s ih =>
    intro first res e h
    simp only [from_chars_loop] at h
    split at h
    · cases h; simp
    · split at h
      · cases h; simp
      · split at h
        · cases h; simp
        · obtain ⟨h1, h2, h3⟩ := ih _ _ _ h
          simp only [List.length_cons]
          exact ⟨h1, by omega, by omega⟩

/-- Every input splits, the way the decoder does it, into an optional sign and a body. -/
theorem exists_sign_split (T : IntType) (s : List Byte) :
    ∃ neg body, s = sign_bytes neg ++ body ∧ (neg = true → T.is_signed = true) ∧
      (neg = false → T.is_signed = true → body.head? ≠ some 45) := by
  by_cases h : T.is_signed = true ∧ s.head? = some 45
  · obtain ⟨hs, hh⟩ := h
    cases s with
    | nil => simp at hh
    | cons b r =>
      simp at hh
      subst hh
      exact ⟨true, r, by simp [sign_bytes], fun _ => hs, by simp⟩
  · exact ⟨false, s, by simp [sign_bytes], by simp, fun _ hs hh => h ⟨hs, hh⟩⟩

theorem from_chars_empty_body (T : IntType) (first : Nat) (neg : Bool) (v : Int)
    (hneg : neg = true → T.is_signed = true) :
    detail.from_chars T first (sign_bytes neg) v =
      (v, ⟨first + (sign_bytes neg).length, errc.invalid_argument⟩) := by
  cases neg
  · cases T <;> simp [detail.from_chars, sign_bytes, IntType.is_signed]
  · have hs := hneg rfl
    simp [detail.from_chars, sign_bytes, hs]

theorem from_chars_of_loop_error (T : IntType) (first : Nat) (neg : Bool) (body : List Byte)
    (v : Int) (e : from_chars_result) (hneg : neg = true → T.is_signed = true)
    (hhead : neg = false → T.is_signed = true → body.head? ≠ some 45) (hne : body ≠ [])
    (h : from_chars_loop T.digits body (first + (sign_bytes neg).length) 0 = .error e) :
    detail.from_chars T first (sign_bytes neg ++ body) v = (v, e) := by
  cases neg
  · simp only [sign_bytes, Bool.false_eq_true, if_false, List.length_nil, Nat.add_zero,
      List.nil_append] at h ⊢
    cases body with
    | nil => exact absurd rfl hne
    | cons b r =>
      by_cases hs : T.is_signed = true
      · have hb : b ≠ 45 := by simpa using hhead rfl hs
        simp [detail.from_chars, hs, hb, h]
      · simp [detail.from_chars, hs, h]
  · have hs := hneg rfl
    simp only [sign_bytes, if_true, List.length_singleton, List.singleton_append] at h ⊢
    simp [detail.from_chars, hs, hne, h]

theorem ite_range {α : Type} (x lo hi : Int) (a b : α) :
    (if x < lo ∨ hi < x then a else b) = if lo ≤ x ∧ x ≤ hi then b else a := by
  by_cases h : x < lo ∨ hi < x
  · have h' : ¬ (lo ≤ x ∧ x ≤ hi) := by omega
    rw [if_pos h, if_neg h']
  · have h' : lo ≤ x ∧ x ≤ hi := by omega
    rw [if_neg h, if_pos h']

theorem from_chars_of_loop_ok (T : IntType) (first : Nat) (neg : Bool) (body : List Byte)
    (v : Int) (p res : Nat) (hneg : neg = true → T.is_signed = true)
    (hhead : neg = false → T.is_signed = true → body.head? ≠ some 45) (hne : body ≠ [])
    (hres : res < 2 ^ T.digits)
    (h : from_chars_loop T.digits body (first + (sign_bytes neg).length) 0 = .ok (p, res)) :
    detail.from_chars T first (sign_bytes neg ++ body) v =
      if T.InRange (sign_of neg * res) then (sign_of neg * res, ⟨p, errc.ok⟩)
      else (v, ⟨p, errc.result_out_of_range⟩) := by
  cases neg
  · simp only [sign_bytes, Bool.false_eq_true, if_false, List.length_nil, Nat.add_zero,
      List.nil_append, sign_of, one_mul] at h ⊢
    cases body with
    | nil => exact absurd rfl hne
    | cons b r =>
      by_cases hs : T.is_signed = true
      · have hb : b ≠ 45 := by simpa using hhead rfl hs
        simp only [detail.from_chars, hs, hb, h, if_true, if_false, mul_one]
        simp only [IntType.InRange, ite_range]
        rfl
      · have hr : T.InRange (res : Int) := by
          cases T <;> simp [IntType.is_signed] at hs <;>
            simp [IntType.InRange, IntType.min, IntType.max, IntType.is_signed,
              IntType.digits] at hres ⊢ <;> omega
        simp [detail.from_chars, hs, h, hr]
  · have hs := hneg rfl
    simp only [sign_bytes, if_true, List.length_singleton, List.singleton_append, sign_of] at h ⊢
    simp only [detail.from_chars, hs, hne, h, if_true, if_false]
    rw [mul_comm (-1 : Int) (res : Int)]
    simp only [IntType.InRange, ite_range]

theorem not_is_digit_minus : ¬ is_digit (45 : Byte) := by decide

theorem head_ne_minus_of_digits (body : List Byte) (hd : ∀ b ∈ body, is_digit b) :
    body.head? ≠ some 45 := by
  cases body with
  | nil => simp
  | cons b r =>
    have hb : is_digit b := hd b (List.mem_cons_self _ _)
    simp only [List.head?_cons, ne_eq, Option.some.injEq]
    rintro rfl
    exact not_is_digit_minus hb

/-- On digit bytes the loop can only fail with `result_out_of_range`. -/
theorem from_chars_loop_error_digits (w : Nat) (s : List Byte) : ∀ (first res : Nat)
    (e : from_chars_result), (∀ b ∈ s, is_digit b) →
    from_chars_loop w s first res = .error e → e.ec = errc.result_out_of_range := by
  induction s with
  | nil => intro first res e _ h; simp [from_chars_loop] at h
  | cons b s ih =>
    intro first res e hd h
    have hb : is_digit b := hd b (List.mem_cons_self _ _)
    by_cases hv : res * 10 + (b.val - 48) < 2 ^ w
    · rw [from_chars_loop_digit w b s first res hb hv] at h
      exact ih _ _ _ (fun b hb => hd b (List.mem_cons_of_mem _ hb)) h
    · rw [from_chars_loop_overflow w b s first res hb (by omega)] at h
      cases h; rfl

/-- The decoder on an optional sign followed by digits whose magnitude fits the accumulator. -/
theorem from_chars_digits (T : IntType) (first : Nat) (neg : Bool) (body : List Byte)
    (v : Int) (hneg : neg = true → T.is_signed = true) (hne : body ≠ [])
    (hd : ∀ b ∈ body, is_digit b) (hm : text_value body < 2 ^ T.digits) :
    detail.from_chars T first (sign_bytes neg ++ body) v =
      if T.InRange (sign_of neg * text_value body) then
        (sign_of neg * text_value body,
          ⟨first + (sign_bytes neg ++ body).length, errc.ok⟩)
      else (v, ⟨first + (sign_bytes neg ++ body).length, errc.result_out_of_range⟩) := by
  rw [text_value_eq] at hm ⊢
  have hpos : 0 < 2 ^ T.digits := Nat.pow_pos (by decide)
  have hl := (from_chars_loop_ok_iff T.digits body (first + (sign_bytes neg).length) 0
    (first + (sign_bytes neg).length + body.length) (accumulate 0 body) hpos).2
    ⟨hd, hm, rfl, rfl⟩
  rw [from_chars_of_loop_ok T first neg body v _ _ hneg
    (fun _ _ => head_ne_minus_of_digits body hd) hne hm hl]
  simp only [List.length_append, Nat.add_assoc]

/-- The decoder on an optional sign followed by digits whose magnitude does not fit. -/
theorem from_chars_digits_overflow (T : IntType) (first : Nat) (neg : Bool)
    (body : List Byte) (v : Int) (hneg : neg = true → T.is_signed = true)
    (hd : ∀ b ∈ body, is_digit b) (hm : 2 ^ T.digits ≤ text_value body) :
    ∃ p, detail.from_chars T first (sign_bytes neg ++ body) v =
        (v, ⟨p, errc.result_out_of_range⟩) ∧
      first + (sign_bytes neg).length ≤ p ∧ p < first + (sign_bytes neg ++ body).length := by
  rw [text_value_eq] at hm
  have hpos : 0 < 2 ^ T.digits := Nat.pow_pos (by decide)
  have hne : body ≠ [] := by
    rintro rfl
    simp only [accumulate, List.foldl_nil] at hm
    omega
  cases hl : from_chars_loop T.digits body (first + (sign_bytes neg).length) 0 with
  | error e =>
    obtain ⟨_, h2, h3⟩ := from_chars_loop_error _ _ _ _ _ hl
    have hec := from_chars_loop_error_digits _ _ _ _ _ hd hl
    refine ⟨e.ptr, ?_, h2, by simp only [List.length_append]; omega⟩
    rw [from_chars_of_loop_error T first neg body v e hneg
      (fun _ _ => head_ne_minus_of_digits body hd) hne hl]
    cases e
    simp only at hec
    rw [hec]
  | ok pr =>
    obtain ⟨p, r⟩ := pr
    have := (from_chars_loop_ok_iff T.digits body _ 0 p r hpos).1 hl
    omega

theorem lt_pow_of_inRange (T : IntType) (neg : Bool) (m : Nat)
    (hneg : neg = true → T.is_signed = true) (h : T.InRange (sign_of neg * m)) :
    m < 2 ^ T.digits := by
  cases neg
  · cases T <;> simp [IntType.InRange, IntType.min, IntType.max, IntType.is_signed,
      IntType.digits, sign_of] at h ⊢ <;> omega
  · have hs := hneg rfl
    cases T <;> simp [IntType.is_signed] at hs <;>
      simp [IntType.InRange, IntType.min, IntType.max, IntType.is_signed,
        IntType.digits, sign_of] at h ⊢ <;> omega

/-- Success of the decoder, characterised. -/
theorem from_chars_ok_iff (T : IntType) (first : Nat) (s : List Byte) (v : Int) :
    (detail.from_chars T first s v).2.ec = errc.ok ↔
      ∃ neg body, s = sign_bytes neg ++ body ∧ (neg = true → T.is_signed = true) ∧
        body ≠ [] ∧ (∀ b ∈ body, is_digit b) ∧ T.InRange (sign_of neg * text_value body) := by
  constructor
  · intro hok
    obtain ⟨neg, body, rfl, hneg, hhead⟩ := exists_sign_split T s
    have hpos : 0 < 2 ^ T.digits := Nat.pow_pos (by decide)
    by_cases hne : body = []
    · subst hne
      rw [List.append_nil, from_chars_empty_body T first neg v hneg] at hok
      cases hok
    · cases hl : from_chars_loop T.digits body (first + (sign_bytes neg).length) 0 with
      | error e =>
        rw [from_chars_of_loop_error T first neg body v e hneg hhead hne hl] at hok
        obtain ⟨h1, _⟩ := from_chars_loop_error _ _ _ _ _ hl
        simp only at hok
        rw [hok] at h1
        rcases h1 with h1 | h1 <;> cases h1
      | ok pr =>
        obtain ⟨p, r⟩ := pr
        obtain ⟨hd, hm, _, rfl⟩ := (from_chars_loop_ok_iff T.digits body _ 0 p r hpos).1 hl
        rw [from_chars_of_loop_ok T first neg body v _ _ hneg hhead hne hm hl] at hok
        refine ⟨neg, body, rfl, hneg, hne, hd, ?_⟩
        rw [text_value_eq]
        by_contra hr
        rw [if_neg hr] at hok
        cases hok
  · rintro ⟨neg, body, rfl, hneg, hne, hd, hr⟩
    rw [from_chars_digits T first neg body v hneg hne hd (lt_pow_of_inRange T neg _ hneg hr),
      if_pos hr]

/-- Any error of the decoder leaves the output value as it was and is one of the two decoder
errors. -/
theorem from_chars_error (T : IntType) (first : Nat) (s : List Byte) (v : Int)
    (h : (detail.from_chars T first s v).2.ec ≠ errc.ok) :
    (detail.from_chars T first s v).1 = v ∧
      ((detail.from_chars T first s v).2.ec = errc.invalid_argument ∨
       (detail.from_chars T first s v).2.ec = errc.result_out_of_range) := by
  obtain ⟨neg, body, rfl, hneg, hhead⟩ := exists_sign_split T s
  have hpos : 0 < 2 ^ T.digits := Nat.pow_pos (by decide)
  by_cases hne : body = []
  · subst hne
    rw [List.append_nil, from_chars_empty_body T first neg v hneg]
    exact ⟨rfl, Or.inl rfl⟩
  · cases hl : from_chars_loop T.digits body (first + (sign_bytes neg).length) 0 with
    | error e =>
      rw [from_chars_of_loop_error T first neg body v e hneg hhead hne hl]
      exact ⟨rfl, (from_chars_loop_error _ _ _ _ _ hl).1⟩
    | ok pr =>
      obtain ⟨p, r⟩ := pr
      obtain ⟨hd, hm, _, rfl⟩ := (from_chars_loop_ok_iff T.digits body _ 0 p r hpos).1 hl
      rw [from_chars_of_loop_ok T first neg body v _ _ hneg hhead hne hm hl] at h ⊢
      by_cases hr : T.InRange (sign_of neg * (accumulate 0 body : Nat))
      · rw [if_pos hr] at h; exact absurd rfl h
      · rw [if_neg hr]; exact ⟨rfl, Or.inr rfl⟩

theorem digit_char_spec (d : Nat) (h : d < 10) :
    is_digit (digit_char d) ∧ (digit_char d).val - 48 = d := by
  simp only [is_digit, digit_char, Byte.ofNat]
  omega

theorem text_value_map_digit_char (ds : List Nat) (h : ∀ d ∈ ds, d < 10) :
    text_value (ds.map digit_char) = digits_value ds := by
  unfold text_value
  rw [List.map_map]
  congr 1
  conv_rhs => rw [← List.map_id ds]
  apply List.map_congr_left
  intro d hd
  exact (digit_char_spec d (h d hd)).2

theorem decimal_text_eq (v : Int) :
    decimal_text v = sign_bytes (decide (v < 0)) ++ (decimal_digits v.natAbs).map digit_char := by
  unfold decimal_text sign_bytes
  by_cases h : v < 0 <;> simp [h]

theorem decimal_digits_ne_nil (n : Nat) : decimal_digits n ≠ [] := by
  obtain ⟨d, ds, e, _⟩ := decimal_digits_head n
  rw [e]; simp

theorem is_signed_of_neg (T : IntType) (v : Int) (hv : T.InRange v) (h : v < 0) :
    T.is_signed = true := by
  cases T <;> simp [IntType.InRange, IntType.min, IntType.is_signed] at hv ⊢ <;> omega

/-- Decoding the canonical text of a value of the type gives the value back. -/
theorem from_chars_decimal_text (T : IntType) (first : Nat) (v v₀ : Int) (hv : T.InRange v) :
    detail.from_chars T first (decimal_text v) v₀ =
      (v, ⟨first + (decimal_text v).length, errc.ok⟩) := by
  have hd : ∀ b ∈ (decimal_digits v.natAbs).map digit_char, is_digit b := by
    intro b hb
    obtain ⟨d, hd, rfl⟩ := List.mem_map.1 hb
    exact (digit_char_spec d (decimal_digits_lt _ d hd)).1
  have hval : text_value ((decimal_digits v.natAbs).map digit_char) = v.natAbs := by
    rw [text_value_map_digit_char _ (decimal_digits_lt _), digits_value_decimal_digits]
  have hneg : decide (v < 0) = true → T.is_signed = true := by
    intro h
    exact is_signed_of_neg T v hv (by simpa using h)
  have hsv : sign_of (decide (v < 0)) * (v.natAbs : Int) = v := by
    unfold sign_of
    by_cases h : v < 0
    · rw [if_pos (decide_eq_true h)]; omega
    · rw [if_neg (by simpa using h)]; omega
  rw [decimal_text_eq]
  rw [from_chars_digits T first _ _ v₀ hneg (by simpa using decimal_digits_ne_nil _) hd
    (by rw [hval]; exact natAbs_lt_of_inRange T v hv)]
  rw [hval, hsv, if_pos hv]

end rigtorp

namespace rigtorp

/-! ## The claims about `to_chars` and `from_chars` -/

/-- C1: round trip. For each of the four types and every value `v` of the type, encoding
`v` with `to_chars` into a buffer of sufficient capacity succeeds, and decoding exactly the
written bytes `[first, ptr)` with `from_chars` succeeds, stores `v` in the output value
(whatever it held before) and returns the end of the written bytes as consumed position. -/
theorem C1_round_trip (T : IntType) (mem : List Byte) (first last : Nat) (v v₀ : Int)
    (hv : T.InRange v) (hl : last ≤ mem.length)
    (hcap : first + (decimal_text v).length ≤ last) :
    (to_chars T mem first last v).2.ec = errc.ok ∧
    from_chars T first
        (((to_chars T mem first last v).1.drop first).take
          ((to_chars T mem first last v).2.ptr - first)) v₀ =
      (v, ⟨(to_chars T mem first last v).2.ptr, errc.ok⟩) := by
  unfold to_chars from_chars
  rw [to_chars_ok T mem first last v hv hl hcap]
  refine ⟨rfl, ?_⟩
  simp only [Nat.add_sub_cancel_left]
  rw [slice_write_at mem first _ (by omega)]
  exact from_chars_decimal_text T first v v₀ hv

/-- C1 at `INT32_MIN`, encoded at the start of a zero-filled 32-byte buffer and decoded into a
variable holding 999. -/
theorem C1_round_trip_witness :
    IntType.int32.InRange (-2147483648) ∧
    32 ≤ (List.replicate 32 (0 : Byte)).length ∧
    0 + (decimal_text (-2147483648)).length ≤ 32 ∧
    ((to_chars .int32 (List.replicate 32 0) 0 32 (-2147483648)).2.ec = errc.ok ∧
     from_chars .int32 0
        (((to_chars .int32 (List.replicate 32 0) 0 32 (-2147483648)).1.drop 0).take
          ((to_chars .int32 (List.replicate 32 0) 0 32 (-2147483648)).2.ptr - 0)) 999 =
      (-2147483648,
        ⟨(to_chars .int32 (List.replicate 32 0) 0 32 (-2147483648)).2.ptr, errc.ok⟩)) :=
  ⟨by decide, by decide, by decide,
   C1_round_trip .int32 (List.replicate 32 0) 0 32 (-2147483648) 999 (by decide) (by decide)
     (by decide)⟩

/-- C2: for each of the four types, every value `v` and every buffer whose capacity is at
least the length of `v`'s decimal text, `to_chars` returns success with `ptr` equal to `first`
plus the number of bytes written, and the bytes written from `first` on are the canonical
decimal representation of `v`: a `'-'` exactly when `v < 0`, then the decimal digits of `|v|`,
most significant first, with no leading zero except the single digit `0` for `v = 0`. -/
theorem C2_to_chars_canonical (T : IntType) (mem : List Byte) (first last : Nat) (v : Int)
    (hv : T.InRange v) (hl : last ≤ mem.length)
    (hcap : first + (decimal_text v).length ≤ last) :
    (to_chars T mem first last v).2 = ⟨first + (decimal_text v).length, errc.ok⟩ ∧
    ((to_chars T mem first last v).1.drop first).take (decimal_text v).length =
      decimal_text v ∧
    ∃ ds : List Nat,
      decimal_text v = (if v < 0 then [(45 : Byte)] else []) ++ ds.map digit_char ∧
      ds ≠ [] ∧ (∀ d ∈ ds, d < 10) ∧ digits_value ds = v.natAbs ∧
      (ds.head? = some 0 → ds = [0]) := by
  unfold to_chars
  rw [to_chars_ok T mem first last v hv hl hcap]
  refine ⟨rfl, slice_write_at mem first _ (by omega), decimal_digits v.natAbs, rfl,
    decimal_digits_ne_nil _, decimal_digits_lt _, digits_value_decimal_digits _, ?_⟩
  obtain ⟨d, ds, e, _, h0⟩ := decimal_digits_head v.natAbs
  intro hh
  rw [e] at hh
  simp only [List.head?_cons, Option.some.injEq] at hh
  rw [h0 hh]
  rfl

/-- C2 at `INT32_MIN`, whose text is `-2147483648`. -/
theorem C2_to_chars_canonical_witness :
    IntType.int32.InRange (-2147483648) ∧
    32 ≤ (List.replicate 32 (0 : Byte)).length ∧
    0 + (decimal_text (-2147483648)).length ≤ 32 ∧
    decimal_text (-2147483648) = [45, 50, 49, 52, 55, 52, 56, 51, 54, 52, 56] ∧
    ((to_chars .int32 (List.replicate 32 0) 0 32 (-2147483648)).2 =
        ⟨0 + (decimal_text (-2147483648)).length, errc.ok⟩ ∧
     ((to_chars .int32 (List.replicate 32 0) 0 32 (-2147483648)).1.drop 0).take
        (decimal_text (-2147483648)).length = decimal_text (-2147483648) ∧
     ∃ ds : List Nat,
      decimal_text (-2147483648) =
        (if (-2147483648 : Int) < 0 then [(45 : Byte)] else []) ++ ds.map digit_char ∧
      ds ≠ [] ∧ (∀ d ∈ ds, d < 10) ∧ digits_value ds = (-2147483648 : Int).natAbs ∧
      (ds.head? = some 0 → ds = [0])) :=
  ⟨by decide, by decide, by decide,
   by decide,
   C2_to_chars_canonical .int32 (List.replicate 32 0) 0 32 (-2147483648) (by decide) (by decide)
     (by decide)⟩

/-- C3: for each of the four target types and every input byte range, `from_chars` returns
success if and only if the input is an optional leading `'-'` (for signed targets only)
followed by one or more ASCII decimal digits whose signed numeric value is representable in
the target type; in that case the output value is exactly that number and the returned `ptr`
is `last`. -/
theorem C3_from_chars_success_iff (T : IntType) (first : Nat) (s : List Byte) (v : Int) :
    ((from_chars T first s v).2.ec = errc.ok ↔
      ∃ neg body, s = sign_bytes neg ++ body ∧ (neg = true → T.is_signed = true) ∧
        body ≠ [] ∧ (∀ b ∈ body, is_digit b) ∧
        T.InRange (sign_of neg * text_value body)) ∧
    (∀ neg body, s = sign_bytes neg ++ body → (neg = true → T.is_signed = true) →
        body ≠ [] → (∀ b ∈ body, is_digit b) →
        T.InRange (sign_of neg * text_value body) →
        from_chars T first s v =
          (sign_of neg * text_value body, ⟨first + s.length, errc.ok⟩)) := by
  unfold from_chars
  refine ⟨from_chars_ok_iff T first s v, ?_⟩
  rintro neg body rfl hneg hne hd hr
  rw [from_chars_digits T first neg body v hneg hne hd (lt_pow_of_inRange T neg _ hneg hr),
    if_pos hr]

set_option maxRecDepth 8192 in
/-- C3 at `"-2147483648"` decoded into an `int32_t` holding 999: success with `INT32_MIN`. -/
theorem C3_from_chars_success_iff_witness :
    from_chars .int32 0 [45, 50, 49, 52, 55, 52, 56, 51, 54, 52, 56] 999 =
      (sign_of true * text_value [50, 49, 52, 55, 52, 56, 51, 54, 52, 56],
        ⟨0 + ([45, 50, 49, 52, 55, 52, 56, 51, 54, 52, 56] : List Byte).length, errc.ok⟩) ∧
    sign_of true * text_value [50, 49, 52, 55, 52, 56, 51, 54, 52, 56] = -2147483648 :=
  ⟨(C3_from_chars_success_iff .int32 0 [45, 50, 49, 52, 55, 52, 56, 51, 54, 52, 56] 999).2
      true [50, 49, 52, 55, 52, 56, 51, 54, 52, 56] rfl (fun _ => rfl) (by simp)
      (by decide) (by decide),
   by decide⟩

/-- The full length of the decimal text of `v`: the digit count of `|v|`, plus one for the
`'-'` when `v < 0`. -/
theorem decimal_text_length_eq (v : Int) :
    (decimal_text v).length = naive_len v.natAbs + (if v < 0 then 1 else 0) := by
  rw [length_decimal_text]; omega

/-- C4: for every value `v` of each of the four types and every buffer, `to_chars` fails with
`value_too_large` if and only if the capacity `last - first` is smaller than the full length
of `v`'s decimal text (digit count of `|v|`, plus one for `'-'` when `v < 0`); an exact fit
succeeds, a zero-capacity buffer fails for every value, and whenever it fails the returned
`ptr` is the original `last`. -/
theorem C4_to_chars_value_too_large (T : IntType) (mem : List Byte) (first last : Nat)
    (v : Int) (hv : T.InRange v) (hfl : first ≤ last) (hl : last ≤ mem.length) :
    ((to_chars T mem first last v).2.ec = errc.value_too_large ↔
      last - first < naive_len v.natAbs + (if v < 0 then 1 else 0)) ∧
    ((to_chars T mem first last v).2.ec = errc.value_too_large →
      (to_chars T mem first last v).2.ptr = last) ∧
    (last - first = naive_len v.natAbs + (if v < 0 then 1 else 0) →
      (to_chars T mem first last v).2 = ⟨last, errc.ok⟩) ∧
    (last - first = 0 → (to_chars T mem first last v).2 = ⟨last, errc.value_too_large⟩) := by
  unfold to_chars
  have hlen := decimal_text_length_eq v
  have h1 := naive_len_pos v.natAbs
  by_cases hcap : last < first + (decimal_text v).length
  · rw [to_chars_fail T mem first last v hv hcap]
    refine ⟨⟨fun _ => (by omega), fun _ => rfl⟩, fun _ => rfl, fun h => (by omega), fun _ => rfl⟩
  · rw [to_chars_ok T mem first last v hv hl (by omega)]
    refine ⟨⟨fun h => (by cases h), fun h => (by omega)⟩, fun h => (by cases h), fun h => ?_,
      fun h => (by omega)⟩
    have : first + (decimal_text v).length = last := by omega
    rw [this]

/-- C4 at 1000 encoded into the first 3 bytes of a zero-filled 32-byte buffer (fails, `ptr` is
`last`) and into the first 4 bytes (exact fit, succeeds). -/
theorem C4_to_chars_value_too_large_witness :
    IntType.int32.InRange 1000 ∧ 0 ≤ 3 ∧ 3 ≤ (List.replicate 32 (0 : Byte)).length ∧
    (((to_chars .int32 (List.replicate 32 0) 0 3 1000).2.ec = errc.value_too_large ↔
      3 - 0 < naive_len (1000 : Int).natAbs + (if (1000 : Int) < 0 then 1 else 0)) ∧
    ((to_chars .int32 (List.replicate 32 0) 0 3 1000).2.ec = errc.value_too_large →
      (to_chars .int32 (List.replicate 32 0) 0 3 1000).2.ptr = 3) ∧
    (3 - 0 = naive_len (1000 : Int).natAbs + (if (1000 : Int) < 0 then 1 else 0) →
      (to_chars .int32 (List.replicate 32 0) 0 3 1000).2 = ⟨3, errc.ok⟩) ∧
    (3 - 0 = 0 →
      (to_chars .int32 (List.replicate 32 0) 0 3 1000).2 = ⟨3, errc.value_too_large⟩)) ∧
    (to_chars .int32 (List.replicate 32 0) 0 3 1000).2 = ⟨3, errc.value_too_large⟩ ∧
    (to_chars .int32 (List.replicate 32 0) 0 4 1000).2 = ⟨4, errc.ok⟩ :=
  ⟨by decide, by decide, by decide,
   C4_to_chars_value_too_large .int32 (List.replicate 32 0) 0 3 1000 (by decide) (by decide)
     (by decide),
   by decide, by decide⟩

/-- C5: all-or-nothing decode. For each of the four target types, every input byte range and
every prior content of the output value, if `from_chars` returns an error (which is then
`invalid_argument` or `result_out_of_range`), the output value after the call equals its
value before the call. -/
theorem C5_from_chars_all_or_nothing (T : IntType) (first : Nat) (s : List Byte) (v : Int)
    (h : (from_chars T first s v).2.ec ≠ errc.ok) :
    (from_chars T first s v).1 = v ∧
      ((from_chars T first s v).2.ec = errc.invalid_argument ∨
       (from_chars T first s v).2.ec = errc.result_out_of_range) :=
  from_chars_error T first s v h

/-- C5 at `"2147483648"` decoded into an `int32_t` holding 999. -/
theorem C5_from_chars_all_or_nothing_witness :
    (from_chars .int32 0 [50, 49, 52, 55, 52, 56, 51, 54, 52, 56] 999).2.ec ≠ errc.ok ∧
    ((from_chars .int32 0 [50, 49, 52, 55, 52, 56, 51, 54, 52, 56] 999).1 = 999 ∧
      ((from_chars .int32 0 [50, 49, 52, 55, 52, 56, 51, 54, 52, 56] 999).2.ec =
          errc.invalid_argument ∨
       (from_chars .int32 0 [50, 49, 52, 55, 52, 56, 51, 54, 52, 56] 999).2.ec =
          errc.result_out_of_range)) :=
  ⟨by decide,
   C5_from_chars_all_or_nothing .int32 0 [50, 49, 52, 55, 52, 56, 51, 54, 52, 56] 999
     (by decide)⟩

/-- C8: signed range boundary. For a signed target of width `w` and an input made of an
optional `'-'` followed by one or more digits whose magnitude `m` fits the unsigned type of
width `w`, `from_chars` succeeds (with value `m` or `-m` and `ptr = last`) exactly when
`m ≤ 2 ^ (w - 1) - 1` without sign or `m ≤ 2 ^ (w - 1)` with `'-'`, and otherwise fails with
`result_out_of_range`, `ptr = last` and the output value unchanged. -/
theorem C8_signed_range_boundary (T : IntType) (first : Nat) (neg : Bool) (body : List Byte)
    (v : Int) (hs : T.is_signed = true) (hne : body ≠ []) (hd : ∀ b ∈ body, is_digit b)
    (hm : text_value body < 2 ^ T.digits) :
    (((neg = false ∧ text_value body ≤ 2 ^ (T.digits - 1) - 1) ∨
      (neg = true ∧ text_value body ≤ 2 ^ (T.digits - 1))) →
      from_chars T first (sign_bytes neg ++ body) v =
        (sign_of neg * text_value body,
          ⟨first + (sign_bytes neg ++ body).length, errc.ok⟩)) ∧
    (¬ ((neg = false ∧ text_value body ≤ 2 ^ (T.digits - 1) - 1) ∨
        (neg = true ∧ text_value body ≤ 2 ^ (T.digits - 1))) →
      from_chars T first (sign_bytes neg ++ body) v =
        (v, ⟨first + (sign_bytes neg ++ body).length, errc.result_out_of_range⟩)) := by
  unfold from_chars
  rw [from_chars_digits T first neg body v (fun _ => hs) hne hd hm]
  have hr : T.InRange (sign_of neg * text_value body) ↔
      ((neg = false ∧ text_value body ≤ 2 ^ (T.digits - 1) - 1) ∨
       (neg = true ∧ text_value body ≤ 2 ^ (T.digits - 1))) := by
    generalize text_value body = m
    cases neg <;> cases T <;> simp [IntType.is_signed] at hs <;>
      simp [IntType.InRange, IntType.min, IntType.max, IntType.is_signed, IntType.digits,
        sign_of] <;> omega
  constructor
  · intro h
    rw [if_pos (hr.2 h)]
  · intro h
    rw [if_neg (fun h' => h (hr.1 h'))]

set_option maxRecDepth 8192 in
/-- C8 at `"-2147483648"` decoded into an `int32_t` holding 999. -/
theorem C8_signed_range_boundary_witness :
    IntType.int32.is_signed = true ∧
    ([50, 49, 52, 55, 52, 56, 51, 54, 52, 56] : List Byte) ≠ [] ∧
    (∀ b ∈ ([50, 49, 52, 55, 52, 56, 51, 54, 52, 56] : List Byte), is_digit b) ∧
    text_value [50, 49, 52, 55, 52, 56, 51, 54, 52, 56] < 2 ^ IntType.int32.digits ∧
    ((((true = false ∧
          text_value [50, 49, 52, 55, 52, 56, 51, 54, 52, 56] ≤
            2 ^ (IntType.int32.digits - 1) - 1) ∨
       (true = true ∧
          text_value [50, 49, 52, 55, 52, 56, 51, 54, 52, 56] ≤
            2 ^ (IntType.int32.digits - 1))) →
      from_chars .int32 0 (sign_bytes true ++ [50, 49, 52, 55, 52, 56, 51, 54, 52, 56]) 999 =
        (sign_of true * text_value [50, 49, 52, 55, 52, 56, 51, 54, 52, 56],
          ⟨0 + (sign_bytes true ++ [50, 49, 52, 55, 52, 56, 51, 54, 52, 56]).length,
            errc.ok⟩)) ∧
     (¬ ((true = false ∧
          text_value [50, 49, 52, 55, 52, 56, 51, 54, 52, 56] ≤
            2 ^ (IntType.int32.digits - 1) - 1) ∨
        (true = true ∧
          text_value [50, 49, 52, 55, 52, 56, 51, 54, 52, 56] ≤
            2 ^ (IntType.int32.digits - 1))) →
      from_chars .int32 0 (sign_bytes true ++ [50, 49, 52, 55, 52, 56, 51, 54, 52, 56]) 999 =
        (999, ⟨0 + (sign_bytes true ++ [50, 49, 52, 55, 52, 56, 51, 54, 52, 56]).length,
          errc.result_out_of_range⟩))) :=
  ⟨rfl, by simp, by decide, by decide,
   C8_signed_range_boundary .int32 0 true [50, 49, 52, 55, 52, 56, 51, 54, 52, 56] 999 rfl
     (by simp) (by decide) (by decide)⟩

/-- C9: empty input. For every target type, `from_chars` on an empty byte range fails with
`invalid_argument` and `ptr = first`; for the signed targets an input consisting only of `"-"`
fails with `invalid_argument` and `ptr = first + 1`; in both cases the output value is
unchanged. -/
theorem C9_empty_input (T : IntType) (first : Nat) (v : Int) :
    from_chars T first [] v = (v, ⟨first, errc.invalid_argument⟩) ∧
    from_chars .int32 first [45] v = (v, ⟨first + 1, errc.invalid_argument⟩) ∧
    from_chars .int64 first [45] v = (v, ⟨first + 1, errc.invalid_argument⟩) := by
  refine ⟨?_, ?_, ?_⟩
  · cases T <;> simp [from_chars, detail.from_chars, IntType.is_signed]
  · simp [from_chars, detail.from_chars, IntType.is_signed]
  · simp [from_chars, detail.from_chars, IntType.is_signed]

set_option maxRecDepth 8192 in
/-- C10, as stated, fails: `"99999999999*"` decoded into a `uint32_t` holding 888 contains the
non-digit byte `'*'` at position 11 after eleven digits, yet the result is
`result_out_of_range` at position 9, where the accumulation overflows, and not
`invalid_argument` at position 11. -/
theorem C10_invalid_byte_counterexample :
    (∀ b ∈ ([57, 57, 57, 57, 57, 57, 57, 57, 57, 57, 57] : List Byte), is_digit b) ∧
    ¬ is_digit (42 : Byte) ∧
    from_chars .uint32 0 ([57, 57, 57, 57, 57, 57, 57, 57, 57, 57, 57] ++ [42]) 888 =
      (888, ⟨9, errc.result_out_of_range⟩) ∧
    (from_chars .uint32 0 ([57, 57, 57, 57, 57, 57, 57, 57, 57, 57, 57] ++ [42]) 888).2 ≠
      ⟨11, errc.invalid_argument⟩ := by
  decide

/-- C10, amended: for every target type and every input that, after the optional sign of a
signed target, contains a byte that is not an ASCII decimal digit, if the digits before the
first such byte accumulate to a value that fits the unsigned type of the target width, then
`from_chars` fails with `invalid_argument`, the returned `ptr` is the position of that first
non-digit byte, and the output value is unchanged. -/
theorem C10_invalid_byte (T : IntType) (first : Nat) (neg : Bool) (ds : List Byte) (b : Byte)
    (rest : List Byte) (v : Int) (hneg : neg = true → T.is_signed = true)
    (hhead : neg = false → T.is_signed = true → (ds ++ b :: rest).head? ≠ some 45)
    (hd : ∀ d ∈ ds, is_digit d) (hb : ¬ is_digit b) (hm : text_value ds < 2 ^ T.digits) :
    from_chars T first (sign_bytes neg ++ (ds ++ b :: rest)) v =
      (v, ⟨first + (sign_bytes neg).length + ds.length, errc.invalid_argument⟩) := by
  unfold from_chars
  rw [text_value_eq] at hm
  apply from_chars_of_loop_error T first neg (ds ++ b :: rest) v _ hneg hhead (by simp)
  rw [from_chars_loop_append T.digits ds (b :: rest) _ 0 hd hm,
    from_chars_loop_nondigit T.digits b rest _ _ hb]

set_option maxRecDepth 8192 in
/-- C10 (amended) at `"-12*3"` decoded into an `int32_t` holding 999: `invalid_argument` at
position 3. -/
theorem C10_invalid_byte_witness :
    (true = true → IntType.int32.is_signed = true) ∧
    (true = false → IntType.int32.is_signed = true →
      (([49, 50] : List Byte) ++ 42 :: [51]).head? ≠ some 45) ∧
    (∀ d ∈ ([49, 50] : List Byte), is_digit d) ∧
    ¬ is_digit (42 : Byte) ∧
    text_value [49, 50] < 2 ^ IntType.int32.digits ∧
    from_chars .int32 0 (sign_bytes true ++ ([49, 50] ++ 42 :: [51])) 999 =
      (999, ⟨0 + (sign_bytes true).length + ([49, 50] : List Byte).length,
        errc.invalid_argument⟩) :=
  ⟨fun _ => rfl, by decide, by decide, by decide, by decide,
   C10_invalid_byte .int32 0 true [49, 50] 42 [51] 999 (fun _ => rfl) (by decide) (by decide)
     (by decide) (by decide)⟩

end rigtorp

namespace rigtorp

open detail

/-! ## Further lemmas: overflow position, leading zeros, stores, bounds -/

theorem text_value_append_singleton (ds : List Byte) (d : Byte) :
    text_value (ds ++ [d]) = text_value ds * 10 + (d.val - 48) := by
  rw [text_value_eq, text_value_eq, accumulate_append]
  rfl

/-- The decoder on an optional sign, digits that accumulate without overflow, and a digit at
which the checked multiply or add overflows: `result_out_of_range` at that digit, whatever
follows it. -/
theorem from_chars_overflow_at (T : IntType) (first : Nat) (neg : Bool) (ds : List Byte)
    (d : Byte) (rest : List Byte) (v : Int) (hneg : neg = true → T.is_signed = true)
    (hds : ∀ b ∈ ds, is_digit b) (hd : is_digit d) (hm : text_value ds < 2 ^ T.digits)
    (ho : 2 ^ T.digits ≤ text_value ds * 10 + (d.val - 48)) :
    detail.from_chars T first (sign_bytes neg ++ (ds ++ d :: rest)) v =
      (v, ⟨first + (sign_bytes neg).length + ds.length, errc.result_out_of_range⟩) := by
  rw [text_value_eq] at hm ho
  have hhead : (ds ++ d :: rest).head? ≠ some 45 := by
    cases ds with
    | nil =>
      simp only [List.nil_append, List.head?_cons, ne_eq, Option.some.injEq]
      rintro rfl
      exact not_is_digit_minus hd
    | cons b r =>
      have hb : is_digit b := hds b (List.mem_cons_self _ _)
      simp only [List.cons_append, List.head?_cons, ne_eq, Option.some.injEq]
      rintro rfl
      exact not_is_digit_minus hb
  apply from_chars_of_loop_error T first neg (ds ++ d :: rest) v _ hneg (fun _ _ => hhead)
    (by simp)
  rw [from_chars_loop_append T.digits ds (d :: rest) _ 0 hds hm,
    from_chars_loop_overflow T.digits d rest _ _ hd ho]

/-- Digits whose value does not fit have a shortest prefix that does not fit. -/
theorem exists_overflow_split (w : Nat) (body : List Byte) :
    2 ^ w ≤ text_value body →
    ∃ ds d rest, body = ds ++ d :: rest ∧ text_value ds < 2 ^ w ∧
      2 ^ w ≤ text_value ds * 10 + (d.val - 48) := by
  induction body using List.reverseRecOn with
  | nil =>
    intro h
    have hpos : 0 < 2 ^ w := Nat.pow_pos (by decide)
    simp only [text_value, digits_value, List.map_nil, List.foldl_nil] at h
    omega
  | append_singleton init x ih =>
    intro h
    by_cases hi : 2 ^ w ≤ text_value init
    · obtain ⟨ds, d, rest, e, h1, h2⟩ := ih hi
      exact ⟨ds, d, rest ++ [x], by rw [e]; simp, h1, h2⟩
    · rw [text_value_append_singleton] at h
      exact ⟨init, x, [], rfl, by omega, h⟩

theorem is_digit_zero : is_digit (48 : Byte) := by decide

theorem accumulate_zeros (k : Nat) : accumulate 0 (List.replicate k (48 : Byte)) = 0 := by
  induction k with
  | zero => rfl
  | succ k ih =>
    rw [List.replicate_succ, accumulate_cons]
    exact ih

theorem text_value_zeros_append (k : Nat) (body : List Byte) :
    text_value (List.replicate k (48 : Byte) ++ body) = text_value body := by
  rw [text_value_eq, text_value_eq, accumulate_append, accumulate_zeros]

theorem is_digit_zeros_append (k : Nat) (body : List Byte) (hd : ∀ b ∈ body, is_digit b) :
    ∀ b ∈ List.replicate k (48 : Byte) ++ body, is_digit b := by
  intro b hb
  rcases List.mem_append.1 hb with h | h
  · rw [List.eq_of_mem_replicate h]; exact is_digit_zero
  · exact hd b h

/-- The digit loop performs exactly the stores of `to_chars_loop_stores`, in order. -/
theorem to_chars_loop_eq_stores (first : Nat) : ∀ (u : Nat) (mem : List Byte) (pos : Nat),
    (to_chars_loop mem first pos u).1 =
      (to_chars_loop_stores pos u).foldl (fun m s => m.set (first + s.1) s.2) mem := by
  intro u
  induction u using Nat.strong_induction_on with
  | _ u ih =>
    intro mem pos
    rw [to_chars_loop, to_chars_loop_stores]
    by_cases h : 10 ≤ u
    · simp only [h, if_true, List.foldl_cons]
      exact ih (u / 10) (by omega) _ _
    · simp only [h, if_false, List.foldl_nil]

/-- The indices of the stores of the digit loop started at `pos = len - 1`. -/
theorem to_chars_loop_stores_index : ∀ (u pos : Nat), pos + 1 = naive_len u → pos < 2 ^ 32 →
    ∀ s ∈ to_chars_loop_stores pos u, 1 ≤ s.1 ∧ s.1 ≤ pos := by
  intro u
  induction u using Nat.strong_induction_on with
  | _ u ih =>
    intro pos hpos h32 s hs
    rw [to_chars_loop_stores] at hs
    by_cases h : 10 ≤ u
    · rw [naive_len_eq] at hpos
      have h' : ¬ u < 10 := by omega
      simp only [h', if_false] at hpos
      have h1 := naive_len_pos (u / 10)
      have hp : (pos + 2 ^ 32 - 1) % 2 ^ 32 = pos - 1 := by
        norm_num at h32 ⊢
        omega
      simp only [h, if_true, hp, List.mem_cons] at hs
      rcases hs with rfl | hs
      · exact ⟨by simp only; omega, Nat.le_refl _⟩
      · have := ih (u / 10) (by omega) (pos - 1) (by omega) (by omega) s hs
        omega
    · simp only [h, if_false, List.not_mem_nil] at hs

/-- Failure of `to_chars` means that the text does not fit. -/
theorem lt_of_to_chars_fail (T : IntType) (mem : List Byte) (first last : Nat) (v : Int)
    (hv : T.InRange v) (hl : last ≤ mem.length)
    (h : (detail.to_chars T mem first last v).2.ec ≠ errc.ok) :
    last < first + (decimal_text v).length := by
  by_contra hcap
  rw [to_chars_ok T mem first last v hv hl (by omega)] at h
  exact h rfl

/-- Success of `to_chars` means that the text fits. -/
theorem le_of_to_chars_ok (T : IntType) (mem : List Byte) (first last : Nat) (v : Int)
    (hv : T.InRange v) (h : (detail.to_chars T mem first last v).2.ec = errc.ok) :
    first + (decimal_text v).length ≤ last := by
  by_contra hcap
  rw [to_chars_fail T mem first last v hv (by omega)] at h
  cases h

theorem getElem?_set_ne (mem : List Byte) (p i : Nat) (b : Byte) (h : i ≠ p) :
    (mem.set p b)[i]? = mem[i]? := by
  rw [List.getElem?_set]
  have : ¬ p = i := fun e => h e.symm
  simp [this]

/-- The decoder on an optional sign followed by a byte that is not a digit. -/
theorem from_chars_nondigit_head (T : IntType) (first : Nat) (neg : Bool) (b : Byte)
    (rest : List Byte) (v : Int) (hneg : neg = true → T.is_signed = true)
    (hhead : neg = false → T.is_signed = true → b ≠ 45) (hb : ¬ is_digit b) :
    detail.from_chars T first (sign_bytes neg ++ b :: rest) v =
      (v, ⟨first + (sign_bytes neg).length, errc.invalid_argument⟩) := by
  apply from_chars_of_loop_error T first neg (b :: rest) v _ hneg
    (fun h1 h2 => by simpa using hhead h1 h2) (by simp)
  exact from_chars_loop_nondigit T.digits b rest _ _ hb

/-- A signed target consumes a leading `'-'`: the returned position is past it. -/
theorem from_chars_minus_consumed (T : IntType) (first : Nat) (r : List Byte) (v : Int)
    (hs : T.is_signed = true) :
    first + 1 ≤ (detail.from_chars T first (45 :: r) v).2.ptr := by
  have e : (45 : Byte) :: r = sign_bytes true ++ r := rfl
  have hl1 : (sign_bytes true).length = 1 := rfl
  rw [e]
  by_cases hne : r = []
  · subst hne
    rw [List.append_nil, from_chars_empty_body T first true v (fun _ => hs), hl1]
  · cases hl : from_chars_loop T.digits r (first + (sign_bytes true).length) 0 with
    | error e' =>
      rw [from_chars_of_loop_error T first true r v e' (fun _ => hs) (by simp) hne hl]
      have := (from_chars_loop_error _ _ _ _ _ hl).2.1
      rw [hl1] at this
      exact this
    | ok pr =>
      obtain ⟨p, res⟩ := pr
      have hpos : 0 < 2 ^ T.digits := Nat.pow_pos (by decide)
      obtain ⟨_, hm, hp, rfl⟩ := (from_chars_loop_ok_iff T.digits r _ 0 p res hpos).1 hl
      rw [from_chars_of_loop_ok T first true r v _ _ (fun _ => hs) (by simp) hne hm hl]
      rw [hl1] at hp
      split <;> simp only <;> omega

theorem getElem?_eq_some_getD {α : Type} (l : List α) (i : Nat) (d : α) (h : i < l.length) :
    l[i]? = some (l.getD i d) := by
  rw [List.getD_eq_getElem _ _ h, List.getElem?_eq_getElem h]

/-- The bounds of the estimate `t` of `to_chars_len`. -/
theorem to_chars_len_t_le (w : Nat) (hw : w = 32 ∨ w = 64) (v : Nat) (hv : v < 2 ^ w) :
    clz w (v ||| 1) < w ∧ (w = 32 → to_chars_len_t w v ≤ 9) ∧ to_chars_len_t w v ≤ 19 := by
  have hx : v ||| 1 = 2 * (v / 2) + 1 := lor_one_eq v
  have hxw : v ||| 1 < 2 ^ w := by
    rcases hw with rfl | rfl <;> norm_num at hv ⊢ <;> omega
  obtain ⟨h1, _, _⟩ := clz_spec w (v ||| 1) (by omega) hxw
  unfold to_chars_len_t
  rw [Nat.shiftRight_eq_div_pow]
  norm_num
  refine ⟨h1, ?_, ?_⟩
  · intro h; omega
  · rcases hw with rfl | rfl <;> omega

theorem length_decimal_text_le (T : IntType) (v : Int) (hv : T.InRange v) :
    (decimal_text v).length ≤ max_text_length T := by
  rw [length_decimal_text]
  have h1 : ∀ k, 1 ≤ k → v.natAbs < 10 ^ k → naive_len v.natAbs ≤ k :=
    fun k hk h => naive_len_le k _ hk h
  cases T <;>
    simp only [IntType.InRange, IntType.min, IntType.max, IntType.is_signed, IntType.digits,
      if_true, max_text_length] at hv ⊢ <;> norm_num at hv
  · have := h1 10 (by decide) (by norm_num; omega)
    split <;> omega
  · have := h1 10 (by decide) (by norm_num; omega)
    split <;> omega
  · have := h1 19 (by decide) (by norm_num; omega)
    split <;> omega
  · have := h1 20 (by decide) (by norm_num; omega)
    split <;> omega

end rigtorp

namespace rigtorp

/-! ## The claims about positions, frames and bounds -/

set_option maxRecDepth 8192 in
/-- C11, as stated, fails: `"4294967296"` decoded into a `uint32_t` holding 888 is all digits
and overflows the 32-bit accumulator at its last digit, yet the returned position is 9, the
position of that digit, and not `last = 10`. -/
theorem C11_overflow_position_counterexample :
    (∀ b ∈ ([52, 50, 57, 52, 57, 54, 55, 50, 57, 54] : List Byte), is_digit b) ∧
    2 ^ 32 ≤ text_value [52, 50, 57, 52, 57, 54, 55, 50, 57, 54] ∧
    from_chars .uint32 0 [52, 50, 57, 52, 57, 54, 55, 50, 57, 54] 888 =
      (888, ⟨9, errc.result_out_of_range⟩) ∧
    (from_chars .uint32 0 [52, 50, 57, 52, 57, 54, 55, 50, 57, 54] 888).2.ptr ≠
      0 + ([52, 50, 57, 52, 57, 54, 55, 50, 57, 54] : List Byte).length := by
  decide

/-- C11, amended: for every target type and every digit-only input (after the optional sign)
whose accumulation overflows the unsigned representation of the target width, `from_chars`
fails with `result_out_of_range`, the returned position is the position of the digit byte at
which the checked multiply-by-10 or add first overflows (the digits before it accumulate
without overflow), which lies before `last`, and the output value is unchanged. -/
theorem C11_overflow_position (T : IntType) (first : Nat) (neg : Bool) (body : List Byte)
    (v : Int) (hneg : neg = true → T.is_signed = true) (hd : ∀ b ∈ body, is_digit b)
    (ho : 2 ^ T.digits ≤ text_value body) :
    ∃ ds d rest, body = ds ++ d :: rest ∧ text_value ds < 2 ^ T.digits ∧
      2 ^ T.digits ≤ text_value (ds ++ [d]) ∧
      from_chars T first (sign_bytes neg ++ body) v =
        (v, ⟨first + (sign_bytes neg).length + ds.length, errc.result_out_of_range⟩) ∧
      first + (sign_bytes neg).length + ds.length < first + (sign_bytes neg ++ body).length := by
  obtain ⟨ds, d, rest, rfl, h1, h2⟩ := exists_overflow_split T.digits body ho
  refine ⟨ds, d, rest, rfl, h1, by rw [text_value_append_singleton]; exact h2, ?_, ?_⟩
  · unfold from_chars
    exact from_chars_overflow_at T first neg ds d rest v hneg
      (fun b hb => hd b (List.mem_append_left _ hb))
      (hd d (List.mem_append_right _ (List.mem_cons_self _ _))) h1 h2
  · simp only [List.length_append, List.length_cons]
    omega

set_option maxRecDepth 8192 in
/-- C11 (amended) at `"4294967296"` decoded into a `uint32_t` holding 888. -/
theorem C11_overflow_position_witness :
    (false = true → IntType.uint32.is_signed = true) ∧
    (∀ b ∈ ([52, 50, 57, 52, 57, 54, 55, 50, 57, 54] : List Byte), is_digit b) ∧
    2 ^ IntType.uint32.digits ≤ text_value [52, 50, 57, 52, 57, 54, 55, 50, 57, 54] ∧
    ∃ ds d rest, ([52, 50, 57, 52, 57, 54, 55, 50, 57, 54] : List Byte) = ds ++ d :: rest ∧
      text_value ds < 2 ^ IntType.uint32.digits ∧
      2 ^ IntType.uint32.digits ≤ text_value (ds ++ [d]) ∧
      from_chars .uint32 0 (sign_bytes false ++ [52, 50, 57, 52, 57, 54, 55, 50, 57, 54]) 888 =
        (888, ⟨0 + (sign_bytes false).length + ds.length, errc.result_out_of_range⟩) ∧
      0 + (sign_bytes false).length + ds.length <
        0 + (sign_bytes false ++ [52, 50, 57, 52, 57, 54, 55, 50, 57, 54]).length :=
  ⟨by decide, by decide, by decide,
   C11_overflow_position .uint32 0 false [52, 50, 57, 52, 57, 54, 55, 50, 57, 54] 888
     (by decide) (by decide) (by decide)⟩

/-- C12: unsigned boundary. For an unsigned 32-bit target and every digit-only input whose
value first exceeds `2 ^ 32 - 1` when its final digit is accumulated, `from_chars` fails with
`result_out_of_range`, the returned `ptr` is `last - 1`, the position of the digit that
overflowed, and the output value is unchanged. -/
theorem C12_unsigned_boundary (first : Nat) (ds : List Byte) (d : Byte) (v : Int)
    (hds : ∀ b ∈ ds, is_digit b) (hd : is_digit d) (hm : text_value ds ≤ 2 ^ 32 - 1)
    (ho : 2 ^ 32 - 1 < text_value (ds ++ [d])) :
    from_chars .uint32 first (ds ++ [d]) v =
      (v, ⟨first + (ds ++ [d]).length - 1, errc.result_out_of_range⟩) := by
  rw [text_value_append_singleton] at ho
  have h := from_chars_overflow_at .uint32 first false ds d [] v (by decide) hds hd
    (by simp only [IntType.digits]; omega) (by simp only [IntType.digits]; omega)
  simp only [sign_bytes, Bool.false_eq_true, if_false, List.nil_append, List.length_nil,
    Nat.add_zero] at h
  unfold from_chars
  rw [h]
  simp

set_option maxRecDepth 8192 in
/-- C12 at `"4294967296"` decoded into a `uint32_t` holding 888: the result is
`result_out_of_range` at position 9 of 10. -/
theorem C12_unsigned_boundary_witness :
    (∀ b ∈ ([52, 50, 57, 52, 57, 54, 55, 50, 57] : List Byte), is_digit b) ∧
    is_digit (54 : Byte) ∧
    text_value [52, 50, 57, 52, 57, 54, 55, 50, 57] ≤ 2 ^ 32 - 1 ∧
    2 ^ 32 - 1 < text_value ([52, 50, 57, 52, 57, 54, 55, 50, 57] ++ [54]) ∧
    from_chars .uint32 0 ([52, 50, 57, 52, 57, 54, 55, 50, 57] ++ [54]) 888 =
      (888, ⟨0 + (([52, 50, 57, 52, 57, 54, 55, 50, 57] : List Byte) ++ [54]).length - 1,
        errc.result_out_of_range⟩) :=
  ⟨by decide, by decide, by decide, by decide,
   C12_unsigned_boundary 0 [52, 50, 57, 52, 57, 54, 55, 50, 57] 54 888 (by decide) (by decide)
     (by decide) (by decide)⟩

/-- C13: leading-zero tolerance. For every target type, every non-empty digit string (with an
optional `'-'` for signed targets) and every number `k` of `'0'` bytes inserted directly
before the digits, `from_chars` on the padded input returns the same status and the same
output value as on the unpadded input, and on success it consumes the entire padded input;
in particular padding never causes an out-of-range error. -/
theorem C13_leading_zeros (T : IntType) (first : Nat) (neg : Bool) (body : List Byte)
    (k : Nat) (v : Int) (hneg : neg = true → T.is_signed = true) (hne : body ≠ [])
    (hd : ∀ b ∈ body, is_digit b) :
    (from_chars T first (sign_bytes neg ++ (List.replicate k 48 ++ body)) v).2.ec =
      (from_chars T first (sign_bytes neg ++ body) v).2.ec ∧
    (from_chars T first (sign_bytes neg ++ (List.replicate k 48 ++ body)) v).1 =
      (from_chars T first (sign_bytes neg ++ body) v).1 ∧
    ((from_chars T first (sign_bytes neg ++ body) v).2.ec = errc.ok →
      from_chars T first (sign_bytes neg ++ (List.replicate k 48 ++ body)) v =
        (sign_of neg * text_value body,
          ⟨first + (sign_bytes neg ++ (List.replicate k 48 ++ body)).length, errc.ok⟩)) ∧
    ((from_chars T first (sign_bytes neg ++ body) v).2.ec ≠ errc.result_out_of_range →
      (from_chars T first (sign_bytes neg ++ (List.replicate k 48 ++ body)) v).2.ec ≠
        errc.result_out_of_range) := by
  unfold from_chars
  have hd' := is_digit_zeros_append k body hd
  have hne' : List.replicate k (48 : Byte) ++ body ≠ [] := by simp [hne]
  have hv := text_value_zeros_append k body
  by_cases hm : text_value body < 2 ^ T.digits
  · rw [from_chars_digits T first neg body v hneg hne hd hm,
      from_chars_digits T first neg _ v hneg hne' hd' (by rw [hv]; exact hm), hv]
    by_cases hr : T.InRange (sign_of neg * text_value body)
    · rw [if_pos hr, if_pos hr]
      exact ⟨rfl, rfl, fun _ => rfl, fun h => h⟩
    · rw [if_neg hr, if_neg hr]
      exact ⟨rfl, rfl, fun h => (by cases h), fun h => h⟩
  · obtain ⟨p, hp, _⟩ := from_chars_digits_overflow T first neg body v hneg hd (by omega)
    obtain ⟨q, hq, _⟩ := from_chars_digits_overflow T first neg _ v hneg hd'
      (by rw [hv]; omega)
    rw [hp, hq]
    exact ⟨rfl, rfl, fun h => (by cases h), fun h => h⟩

set_option maxRecDepth 8192 in
/-- C13 at `"-2147483648"` padded with eleven zeros after the sign, decoded into an `int32_t`
holding 999: success with `INT32_MIN`, the 22 bytes consumed. -/
theorem C13_leading_zeros_witness :
    (true = true → IntType.int32.is_signed = true) ∧
    ([50, 49, 52, 55, 52, 56, 51, 54, 52, 56] : List Byte) ≠ [] ∧
    (∀ b ∈ ([50, 49, 52, 55, 52, 56, 51, 54, 52, 56] : List Byte), is_digit b) ∧
    (from_chars .int32 0 (sign_bytes true ++ [50, 49, 52, 55, 52, 56, 51, 54, 52, 56])
        999).2.ec = errc.ok ∧
    from_chars .int32 0
        (sign_bytes true ++
          (List.replicate 11 48 ++ [50, 49, 52, 55, 52, 56, 51, 54, 52, 56])) 999 =
      (sign_of true * text_value [50, 49, 52, 55, 52, 56, 51, 54, 52, 56],
        ⟨0 + (sign_bytes true ++
          (List.replicate 11 48 ++ [50, 49, 52, 55, 52, 56, 51, 54, 52, 56])).length,
          errc.ok⟩) :=
  ⟨fun _ => rfl, by decide, by decide, by decide,
   (C13_leading_zeros .int32 0 true [50, 49, 52, 55, 52, 56, 51, 54, 52, 56] 11 999
     (fun _ => rfl) (by decide) (by decide)).2.2.1 (by decide)⟩

/-- C14: failure leaves the buffer alone. Whenever `to_chars` fails with `value_too_large`,
no digit byte has been written: for `v ≥ 0` the memory is unchanged, for `v < 0` with
capacity 0 it is unchanged, and for `v < 0` with capacity at least 1 the only store is
`'-'` at `first`; in every case all bytes other than `first[0]`, and all bytes at or after
`last`, keep their content. -/
theorem C14_failure_frame (T : IntType) (mem : List Byte) (first last : Nat) (v : Int)
    (hv : T.InRange v) (hfl : first ≤ last) (hl : last ≤ mem.length)
    (hfail : (to_chars T mem first last v).2.ec = errc.value_too_large) :
    (0 ≤ v → (to_chars T mem first last v).1 = mem) ∧
    (v < 0 → first = last → (to_chars T mem first last v).1 = mem) ∧
    (v < 0 → first < last → (to_chars T mem first last v).1 = mem.set first 45) ∧
    (∀ i, i ≠ first → (to_chars T mem first last v).1[i]? = mem[i]?) ∧
    (∀ i, last ≤ i → (to_chars T mem first last v).1[i]? = mem[i]?) ∧
    (to_chars T mem first last v).1.length = mem.length := by
  unfold to_chars at hfail ⊢
  have hcap := lt_of_to_chars_fail T mem first last v hv hl (by rw [hfail]; decide)
  rw [to_chars_fail T mem first last v hv hcap]
  simp only
  refine ⟨fun h => ?_, fun h1 h2 => ?_, fun h1 h2 => ?_, fun i hi => ?_, fun i hi => ?_, ?_⟩
  · rw [if_neg (by omega)]
  · rw [if_neg (by omega)]
  · rw [if_pos ⟨h1, by omega⟩]
  · split
    · exact getElem?_set_ne mem first i 45 hi
    · rfl
  · split
    · rename_i h
      exact getElem?_set_ne mem first i 45 (by omega)
    · rfl
  · split
    · exact List.length_set _ _ _
    · rfl

/-- C14 at -1000 encoded into the first 3 bytes of a zero-filled 32-byte buffer (only the
`'-'` is stored) and at 1000 into the same 3 bytes (nothing is stored). -/
theorem C14_failure_frame_witness :
    IntType.int32.InRange (-1000) ∧ 0 ≤ 3 ∧ 3 ≤ (List.replicate 32 (0 : Byte)).length ∧
    (to_chars .int32 (List.replicate 32 0) 0 3 (-1000)).2.ec = errc.value_too_large ∧
    (((0 : Int) ≤ -1000 →
        (to_chars .int32 (List.replicate 32 0) 0 3 (-1000)).1 = List.replicate 32 0) ∧
     ((-1000 : Int) < 0 → 0 = 3 →
        (to_chars .int32 (List.replicate 32 0) 0 3 (-1000)).1 = List.replicate 32 0) ∧
     ((-1000 : Int) < 0 → 0 < 3 →
        (to_chars .int32 (List.replicate 32 0) 0 3 (-1000)).1 =
          (List.replicate 32 0).set 0 45) ∧
     (∀ i, i ≠ 0 →
        (to_chars .int32 (List.replicate 32 0) 0 3 (-1000)).1[i]? =
          (List.replicate 32 (0 : Byte))[i]?) ∧
     (∀ i, 3 ≤ i →
        (to_chars .int32 (List.replicate 32 0) 0 3 (-1000)).1[i]? =
          (List.replicate 32 (0 : Byte))[i]?) ∧
     (to_chars .int32 (List.replicate 32 0) 0 3 (-1000)).1.length =
        (List.replicate 32 (0 : Byte)).length) ∧
    (to_chars .int32 (List.replicate 32 0) 0 3 1000).1 = List.replicate 32 0 :=
  ⟨by decide, by decide, by decide, by decide,
   C14_failure_frame .int32 (List.replicate 32 0) 0 3 (-1000) (by decide) (by decide)
     (by decide) (by decide),
   by decide⟩

/-- C15: no terminator and no stray writes on success. When `to_chars` succeeds, the returned
`ptr` satisfies `first < ptr ≤ last`; the digit loop performs exactly the stores
`to_chars_loop_stores`, whose indices relative to the cursor after the sign lie in
`[1, len - 1]` (index 0 is the final store of the leading digit); the memory after the call
is the memory before it with the text stored at `first`, so every byte at or after `ptr`,
and every byte before `first`, keeps its content. -/
theorem C15_success_frame (T : IntType) (mem : List Byte) (first last : Nat) (v : Int)
    (hv : T.InRange v) (hl : last ≤ mem.length)
    (hok : (to_chars T mem first last v).2.ec = errc.ok) :
    first < (to_chars T mem first last v).2.ptr ∧
    (to_chars T mem first last v).2.ptr ≤ last ∧
    (∀ m f, (detail.to_chars_loop m f
        ((detail.to_chars_len T.digits v.natAbs + 2 ^ 32 - 1) % 2 ^ 32) v.natAbs).1 =
      (detail.to_chars_loop_stores
        ((detail.to_chars_len T.digits v.natAbs + 2 ^ 32 - 1) % 2 ^ 32) v.natAbs).foldl
        (fun m s => m.set (f + s.1) s.2) m) ∧
    (∀ s ∈ detail.to_chars_loop_stores
        ((detail.to_chars_len T.digits v.natAbs + 2 ^ 32 - 1) % 2 ^ 32) v.natAbs,
      1 ≤ s.1 ∧ s.1 ≤ detail.to_chars_len T.digits v.natAbs - 1) ∧
    (to_chars T mem first last v).1 = write_at mem first (decimal_text v) ∧
    (∀ i, (to_chars T mem first last v).2.ptr ≤ i →
      (to_chars T mem first last v).1[i]? = mem[i]?) ∧
    (∀ i, i < first → (to_chars T mem first last v).1[i]? = mem[i]?) ∧
    (to_chars T mem first last v).1.length = mem.length := by
  unfold to_chars at hok ⊢
  have hcap := le_of_to_chars_ok T mem first last v hv hok
  have hlen := to_chars_len_eq T.digits T.digits_cases v.natAbs (natAbs_lt_of_inRange T v hv)
  have h20 := naive_len_lt_of_inRange T v hv
  have h1 := naive_len_pos v.natAbs
  have hp : (naive_len v.natAbs + 2 ^ 32 - 1) % 2 ^ 32 = naive_len v.natAbs - 1 := by
    norm_num
    omega
  have htl := length_decimal_text v
  rw [to_chars_ok T mem first last v hv hl hcap, hlen]
  simp only
  refine ⟨by omega, hcap, fun m f => to_chars_loop_eq_stores f _ m _, ?_, trivial,
    fun i hi => ?_, fun i hi => ?_, length_write_at _ _ _ (by omega)⟩
  · rw [hp]
    exact to_chars_loop_stores_index v.natAbs (naive_len v.natAbs - 1) (by omega) (by omega)
  · rw [getElem?_write_at mem first _ (by omega), if_neg (by omega), if_neg (by omega)]
  · rw [getElem?_write_at mem first _ (by omega), if_pos hi]

/-- C15 at 1000 encoded into a zero-filled 32-byte buffer: the buffer reads `1000` followed by
zeros. -/
theorem C15_success_frame_witness :
    IntType.int32.InRange 1000 ∧ 32 ≤ (List.replicate 32 (0 : Byte)).length ∧
    (to_chars .int32 (List.replicate 32 0) 0 32 1000).2.ec = errc.ok ∧
    (to_chars .int32 (List.replicate 32 0) 0 32 1000).1 =
      write_at (List.replicate 32 0) 0 (decimal_text 1000) ∧
    write_at (List.replicate 32 0) 0 (decimal_text 1000) =
      [49, 48, 48, 48] ++ List.replicate 28 0 :=
  ⟨by decide, by decide, by decide,
   (C15_success_frame .int32 (List.replicate 32 0) 0 32 1000 (by decide) (by decide)
     (by decide)).2.2.2.2.1,
   by decide⟩

/-- The negative path of `to_chars` with room for the sign computes its `uvalue` with
`negate_unsigned`. -/
theorem to_chars_negative_path (T : IntType) (mem : List Byte) (first last : Nat) (v : Int)
    (hs : T.is_signed = true) (hneg : v < 0) (hne : first ≠ last) :
    detail.to_chars T mem first last v =
      if (last : Int) - ((first + 1 : Nat) : Int) <
          (detail.to_chars_len T.digits (detail.negate_unsigned T.digits v) : Int) then
        (mem.set first 45, ⟨last, errc.value_too_large⟩)
      else
        ((detail.to_chars_loop (mem.set first 45) (first + 1)
            ((detail.to_chars_len T.digits (detail.negate_unsigned T.digits v) + 2 ^ 32 - 1)
              % 2 ^ 32) (detail.negate_unsigned T.digits v)).1.set (first + 1)
          (Byte.ofNat ((detail.to_chars_loop (mem.set first 45) (first + 1)
            ((detail.to_chars_len T.digits (detail.negate_unsigned T.digits v) + 2 ^ 32 - 1)
              % 2 ^ 32) (detail.negate_unsigned T.digits v)).2 + 48)),
         ⟨first + 1 + detail.to_chars_len T.digits (detail.negate_unsigned T.digits v),
           errc.ok⟩) := by
  simp only [detail.to_chars, detail.negate_unsigned, hs, hneg, hne, if_true, ne_eq,
    not_false_eq_true]

theorem int_not_eq (v : Int) : ~~~v = -v - 1 := by
  cases v with
  | ofNat n => show Int.negSucc n = -(n : Int) - 1; rw [Int.negSucc_eq]; omega
  | negSucc n => show (n : Int) = -(Int.negSucc n) - 1; rw [Int.negSucc_eq]; omega

/-- C16: magnitude by two's-complement negation. For every negative value `v` of a signed
type of width `w`, including the minimum `-2 ^ (w - 1)`, the quantity `UT(~v) + UT(1)`
computed modulo `2 ^ w` equals the magnitude `-v`, which lies in `[1, 2 ^ (w - 1)]`; for the
minimum value the magnitude is `2 ^ (w - 1)`, which is not a value of the signed type. -/
theorem C16_negate_unsigned (T : IntType) (v : Int) (hs : T.is_signed = true)
    (hv : T.InRange v) (hneg : v < 0) :
    detail.negate_unsigned T.digits v = ((~~~v % 2 ^ T.digits).toNat + 1) % 2 ^ T.digits ∧
    (detail.negate_unsigned T.digits v : Int) = -v ∧
    1 ≤ detail.negate_unsigned T.digits v ∧
    detail.negate_unsigned T.digits v ≤ 2 ^ (T.digits - 1) ∧
    (v = T.min → detail.negate_unsigned T.digits v = 2 ^ (T.digits - 1) ∧
      ¬ T.InRange (2 ^ (T.digits - 1))) := by
  refine ⟨by rw [int_not_eq]; rfl, ?_⟩
  unfold detail.negate_unsigned
  cases T <;> simp [IntType.is_signed] at hs <;>
    simp only [IntType.InRange, IntType.min, IntType.max, IntType.is_signed, IntType.digits,
      if_true] at hv ⊢ <;> norm_num at hv ⊢ <;> omega

/-- C16 at `INT32_MIN`: the magnitude is `2147483648 = 2 ^ 31`. -/
theorem C16_negate_unsigned_witness :
    IntType.int32.is_signed = true ∧ IntType.int32.InRange (-2147483648) ∧
    (-2147483648 : Int) < 0 ∧
    detail.negate_unsigned 32 (-2147483648) = 2147483648 ∧
    (detail.negate_unsigned IntType.int32.digits (-2147483648) =
        ((~~~(-2147483648 : Int) % 2 ^ IntType.int32.digits).toNat + 1) %
          2 ^ IntType.int32.digits ∧
     (detail.negate_unsigned IntType.int32.digits (-2147483648) : Int) = -(-2147483648) ∧
     1 ≤ detail.negate_unsigned IntType.int32.digits (-2147483648) ∧
     detail.negate_unsigned IntType.int32.digits (-2147483648) ≤
        2 ^ (IntType.int32.digits - 1) ∧
     ((-2147483648 : Int) = IntType.int32.min →
        detail.negate_unsigned IntType.int32.digits (-2147483648) =
          2 ^ (IntType.int32.digits - 1) ∧
        ¬ IntType.int32.InRange (2 ^ (IntType.int32.digits - 1)))) :=
  ⟨rfl, by decide, by decide, by decide,
   C16_negate_unsigned .int32 (-2147483648) rfl (by decide) (by decide)⟩

/-- C17: the sign is accepted only for signed targets. For unsigned targets every input whose
first byte is `'-'` fails with `invalid_argument` at `first` with the output value unchanged;
for signed targets a leading `'-'` is consumed (the returned position is past it) and at most
one sign byte is accepted: a second `'-'` or a `'+'` after it is an invalid byte at
`first + 1`, and a leading `'+'` is an invalid byte at `first` for every target. -/
theorem C17_sign_handling (T : IntType) (first : Nat) (r : List Byte) (v : Int) :
    (T.is_signed = false →
      from_chars T first (45 :: r) v = (v, ⟨first, errc.invalid_argument⟩)) ∧
    (T.is_signed = true → first + 1 ≤ (from_chars T first (45 :: r) v).2.ptr) ∧
    (T.is_signed = true →
      from_chars T first (45 :: 45 :: r) v = (v, ⟨first + 1, errc.invalid_argument⟩)) ∧
    (T.is_signed = true →
      from_chars T first (45 :: 43 :: r) v = (v, ⟨first + 1, errc.invalid_argument⟩)) ∧
    from_chars T first (43 :: r) v = (v, ⟨first, errc.invalid_argument⟩) := by
  unfold from_chars
  refine ⟨fun hs => ?_, fun hs => from_chars_minus_consumed T first r v hs, fun hs => ?_,
    fun hs => ?_, ?_⟩
  · exact from_chars_nondigit_head T first false 45 r v (by simp)
      (fun _ h => by rw [hs] at h; cases h) (by decide)
  · exact from_chars_nondigit_head T first true 45 r v (fun _ => hs) (by simp) (by decide)
  · exact from_chars_nondigit_head T first true 43 r v (fun _ => hs) (by simp) (by decide)
  · exact from_chars_nondigit_head T first false 43 r v (by simp) (fun _ _ => by decide)
      (by decide)

set_option maxRecDepth 8192 in
/-- C17 at `"-1"` decoded into a `uint32_t` holding 888: `invalid_argument` at position 0. -/
theorem C17_sign_handling_witness :
    IntType.uint32.is_signed = false ∧
    from_chars .uint32 0 (45 :: [49]) 888 = (888, ⟨0, errc.invalid_argument⟩) ∧
    from_chars .int32 0 (45 :: [49]) 888 = (-1, ⟨2, errc.ok⟩) :=
  ⟨rfl, (C17_sign_handling .uint32 0 [49] 888).1 rfl, by decide⟩

/-- C18: the digit-length estimator is total. For every value `v` of width `w` (32 or 64) the
estimate `t = ((w - clz(v | 1)) * 1233) >> 12` is at most 9 for `w = 32` and at most 19 for
`w = 64`, so the lookup `powers_of_10[t]` is inside the 20-entry table; the leading-zero count
is taken of the non-zero `v | 1` and is less than `w`; and `t - (v < powers_of_10[t]) + 1`
never underflows, so the wrapping arithmetic of `to_chars_len` is plain arithmetic. -/
theorem C18_estimator_total (w : Nat) (hw : w = 32 ∨ w = 64) (v : Nat) (hv : v < 2 ^ w) :
    (w = 32 → detail.to_chars_len_t w v ≤ 9) ∧
    detail.to_chars_len_t w v ≤ 19 ∧
    detail.powers_of_10.length = 20 ∧
    detail.powers_of_10[detail.to_chars_len_t w v]? =
      some (detail.powers_of_10.getD (detail.to_chars_len_t w v) 0) ∧
    0 < v ||| 1 ∧
    detail.clz w (v ||| 1) < w ∧
    (v < detail.powers_of_10.getD (detail.to_chars_len_t w v) 0 →
      1 ≤ detail.to_chars_len_t w v) ∧
    detail.to_chars_len w v =
      detail.to_chars_len_t w v -
        (if v < detail.powers_of_10.getD (detail.to_chars_len_t w v) 0 then 1 else 0) + 1 := by
  obtain ⟨hc, h9, h19⟩ := to_chars_len_t_le w hw v hv
  have hx : v ||| 1 = 2 * (v / 2) + 1 := lor_one_eq v
  have hlen : detail.powers_of_10.length = 20 := rfl
  have hu : v < detail.powers_of_10.getD (detail.to_chars_len_t w v) 0 →
      1 ≤ detail.to_chars_len_t w v := by
    intro h
    by_contra h0
    have h0 : detail.to_chars_len_t w v = 0 := by omega
    rw [h0] at h
    simp [detail.powers_of_10] at h
  refine ⟨h9, h19, hlen, getElem?_eq_some_getD _ _ 0 (by omega), by omega, hc, hu, ?_⟩
  show (detail.to_chars_len_t w v + 2 ^ 32 -
      (if v < detail.powers_of_10.getD (detail.to_chars_len_t w v) 0 then 1 else 0) + 1) %
        2 ^ 32 = _
  split
  · rename_i h
    have := hu h
    norm_num
    omega
  · norm_num
    omega

/-- C18 at the value 0 of width 32: `t = 0` and the table entry `powers_of_10[0] = 0` keeps
the subtraction from underflowing. -/
theorem C18_estimator_total_witness :
    (32 = 32 ∨ 32 = 64) ∧ 0 < 2 ^ 32 ∧ detail.to_chars_len_t 32 0 = 0 ∧
    ((32 = 32 → detail.to_chars_len_t 32 0 ≤ 9) ∧
     detail.to_chars_len_t 32 0 ≤ 19 ∧
     detail.powers_of_10.length = 20 ∧
     detail.powers_of_10[detail.to_chars_len_t 32 0]? =
       some (detail.powers_of_10.getD (detail.to_chars_len_t 32 0) 0) ∧
     0 < 0 ||| 1 ∧
     detail.clz 32 (0 ||| 1) < 32 ∧
     (0 < detail.powers_of_10.getD (detail.to_chars_len_t 32 0) 0 →
       1 ≤ detail.to_chars_len_t 32 0) ∧
     detail.to_chars_len 32 0 =
       detail.to_chars_len_t 32 0 -
         (if 0 < detail.powers_of_10.getD (detail.to_chars_len_t 32 0) 0 then 1 else 0) + 1) :=
  ⟨Or.inl rfl, by decide, by decide, C18_estimator_total 32 (Or.inl rfl) 0 (by decide)⟩

/-- C19: first failure wins. Scanning the bytes after the optional sign from left to right,
after digits that accumulate without unsigned overflow the next byte decides the result: if
it is not a digit the result is `invalid_argument` with `ptr` at that byte; if it is a digit
at which the checked multiply or add overflows the result is `result_out_of_range` with `ptr`
at that digit, whatever bytes follow, non-digit bytes included. The output value is unchanged
in both cases. -/
theorem C19_first_failure_wins (T : IntType) (first : Nat) (neg : Bool) (ds : List Byte)
    (x : Byte) (rest : List Byte) (v : Int) (hneg : neg = true → T.is_signed = true)
    (hds : ∀ b ∈ ds, is_digit b) (hm : text_value ds < 2 ^ T.digits) :
    (¬ is_digit x →
      (neg = false → T.is_signed = true → (ds ++ x :: rest).head? ≠ some 45) →
      from_chars T first (sign_bytes neg ++ (ds ++ x :: rest)) v =
        (v, ⟨first + (sign_bytes neg).length + ds.length, errc.invalid_argument⟩)) ∧
    (is_digit x → 2 ^ T.digits ≤ text_value (ds ++ [x]) →
      from_chars T first (sign_bytes neg ++ (ds ++ x :: rest)) v =
        (v, ⟨first + (sign_bytes neg).length + ds.length, errc.result_out_of_range⟩)) := by
  unfold from_chars
  constructor
  · intro hx hhead
    rw [text_value_eq] at hm
    apply from_chars_of_loop_error T first neg (ds ++ x :: rest) v _ hneg hhead (by simp)
    rw [from_chars_loop_append T.digits ds (x :: rest) _ 0 hds hm,
      from_chars_loop_nondigit T.digits x rest _ _ hx]
  · intro hx ho
    rw [text_value_append_singleton] at ho
    exact from_chars_overflow_at T first neg ds x rest v hneg hds hx hm ho

set_option maxRecDepth 8192 in
/-- C19 at `"99999999999*"` decoded into a `uint32_t` holding 888: the tenth digit overflows,
so the result is `result_out_of_range` at position 9 although a `'*'` follows. -/
theorem C19_first_failure_wins_witness :
    (false = true → IntType.uint32.is_signed = true) ∧
    (∀ b ∈ ([57, 57, 57, 57, 57, 57, 57, 57, 57] : List Byte), is_digit b) ∧
    text_value [57, 57, 57, 57, 57, 57, 57, 57, 57] < 2 ^ IntType.uint32.digits ∧
    is_digit (57 : Byte) ∧
    2 ^ IntType.uint32.digits ≤ text_value ([57, 57, 57, 57, 57, 57, 57, 57, 57] ++ [57]) ∧
    from_chars .uint32 0
        (sign_bytes false ++ ([57, 57, 57, 57, 57, 57, 57, 57, 57] ++ 57 :: [57, 42])) 888 =
      (888, ⟨0 + (sign_bytes false).length +
          ([57, 57, 57, 57, 57, 57, 57, 57, 57] : List Byte).length,
        errc.result_out_of_range⟩) :=
  ⟨by decide, by decide, by decide, by decide, by decide,
   (C19_first_failure_wins .uint32 0 false [57, 57, 57, 57, 57, 57, 57, 57, 57] 57 [57, 42]
     888 (by decide) (by decide) (by decide)).2 (by decide) (by decide)⟩

/-- The digit loop performs one store for each digit but the leading one. -/
theorem to_chars_loop_stores_length : ∀ (u pos : Nat),
    (detail.to_chars_loop_stores pos u).length + 1 = naive_len u := by
  intro u
  induction u using Nat.strong_induction_on with
  | _ u ih =>
    intro pos
    rw [detail.to_chars_loop_stores, naive_len_eq]
    by_cases h : 10 ≤ u
    · have h' : ¬ u < 10 := by omega
      simp only [h, h', if_true, if_false, List.length_cons]
      rw [ih (u / 10) (by omega)]
    · have h' : u < 10 := by omega
      simp only [h, h', if_true, if_false, List.length_nil]

/-- C20: sufficient buffer size. On success `to_chars` stores exactly the bytes of the decimal
text of the value at `first` (one store for the sign of a negative value, one store of the
digit loop for each digit but the leading one, one store for the leading digit) and leaves
every other byte alone; the text takes at most 10 bytes for `uint32`, 11 for `int32` and 20
for `uint64` and `int64`. Hence `to_chars` never fails with `value_too_large` when the
capacity is at least 11 for the 32-bit types or at least 20 for the 64-bit types. The bounds
are attained: `to_chars` stores the 10 bytes of `4294967295`, the 11 bytes of `-2147483648`,
the 20 bytes of `18446744073709551615` and the 20 bytes of `-9223372036854775808`. -/
theorem C20_sufficient_buffer (T : IntType) (v : Int) (hv : T.InRange v) :
    max_text_length .uint32 = 10 ∧ max_text_length .int32 = 11 ∧
    max_text_length .uint64 = 20 ∧ max_text_length .int64 = 20 ∧
    (decimal_text v).length ≤ max_text_length T ∧
    (∀ mem first last, last ≤ mem.length →
      first + (if T.digits = 32 then 11 else 20) ≤ last →
      (to_chars T mem first last v).2.ec = errc.ok) ∧
    (∀ mem first last, last ≤ mem.length →
      (to_chars T mem first last v).2.ec = errc.ok →
      (to_chars T mem first last v).2.ptr - first = (decimal_text v).length ∧
      (to_chars T mem first last v).2.ptr - first ≤ max_text_length T) ∧
    (IntType.uint32.InRange 4294967295 ∧ (decimal_text 4294967295).length = 10) ∧
    (IntType.int32.InRange (-2147483648) ∧ (decimal_text (-2147483648)).length = 11) ∧
    (IntType.uint64.InRange 18446744073709551615 ∧
      (decimal_text 18446744073709551615).length = 20) ∧
    (IntType.int64.InRange (-9223372036854775808) ∧
      (decimal_text (-9223372036854775808)).length = 20) ∧
    -- the memory: what is stored, and where
    (∀ mem first last, last ≤ mem.length →
      (to_chars T mem first last v).2.ec = errc.ok →
      (to_chars T mem first last v).1 = write_at mem first (decimal_text v) ∧
      ((to_chars T mem first last v).1.drop first).take (decimal_text v).length =
        decimal_text v ∧
      (∀ i, i < first ∨ first + max_text_length T ≤ i →
        (to_chars T mem first last v).1[i]? = mem[i]?)) ∧
    -- the stores of the digit loop, counted
    (∀ m f, (detail.to_chars_loop m f
        ((detail.to_chars_len T.digits v.natAbs + 2 ^ 32 - 1) % 2 ^ 32) v.natAbs).1 =
      (detail.to_chars_loop_stores
        ((detail.to_chars_len T.digits v.natAbs + 2 ^ 32 - 1) % 2 ^ 32) v.natAbs).foldl
        (fun m s => m.set (f + s.1) s.2) m) ∧
    (if v < 0 then 1 else 0) +
      (detail.to_chars_loop_stores
        ((detail.to_chars_len T.digits v.natAbs + 2 ^ 32 - 1) % 2 ^ 32) v.natAbs).length + 1 =
      (decimal_text v).length ∧
    -- the bounds are attained by what `to_chars` stores
    (∀ mem first last, last ≤ mem.length → first + 10 ≤ last →
      to_chars .uint32 mem first last 4294967295 =
        (write_at mem first [52, 50, 57, 52, 57, 54, 55, 50, 57, 53],
          ⟨first + 10, errc.ok⟩)) ∧
    (∀ mem first last, last ≤ mem.length → first + 11 ≤ last →
      to_chars .int32 mem first last (-2147483648) =
        (write_at mem first [45, 50, 49, 52, 55, 52, 56, 51, 54, 52, 56],
          ⟨first + 11, errc.ok⟩)) ∧
    (∀ mem first last, last ≤ mem.length → first + 20 ≤ last →
      to_chars .uint64 mem first last 18446744073709551615 =
        (write_at mem first
          [49, 56, 52, 52, 54, 55, 52, 52, 48, 55, 51, 55, 48, 57, 53, 53, 49, 54, 49, 53],
          ⟨first + 20, errc.ok⟩)) ∧
    (∀ mem first last, last ≤ mem.length → first + 20 ≤ last →
      to_chars .int64 mem first last (-9223372036854775808) =
        (write_at mem first
          [45, 57, 50, 50, 51, 51, 55, 50, 48, 51, 54, 56, 53, 52, 55, 55, 53, 56, 48, 56],
          ⟨first + 20, errc.ok⟩)) := by
  have hle := length_decimal_text_le T v hv
  have htl := length_decimal_text v
  refine ⟨rfl, rfl, rfl, rfl, hle, ?_, ?_, by decide, by decide, by decide, by decide,
    ?_, fun m f => to_chars_loop_eq_stores f _ m _, ?_, ?_, ?_, ?_, ?_⟩
  · intro mem first last hl hcap
    unfold to_chars
    have hb : (decimal_text v).length ≤ (if T.digits = 32 then 11 else 20) := by
      cases T <;> simp [max_text_length, IntType.digits] at hle ⊢ <;> omega
    rw [to_chars_ok T mem first last v hv hl (by omega)]
  · intro mem first last hl hok
    unfold to_chars at hok ⊢
    rw [to_chars_ok T mem first last v hv hl (le_of_to_chars_ok T mem first last v hv hok)]
    simp only [Nat.add_sub_cancel_left]
    exact ⟨trivial, hle⟩
  · intro mem first last hl hok
    unfold to_chars at hok ⊢
    have hcap := le_of_to_chars_ok T mem first last v hv hok
    rw [to_chars_ok T mem first last v hv hl hcap]
    refine ⟨rfl, slice_write_at mem first _ (by omega), fun i hi => ?_⟩
    show (write_at mem first (decimal_text v))[i]? = mem[i]?
    rw [getElem?_write_at mem first _ (by omega)]
    rcases hi with hi | hi
    · rw [if_pos hi]
    · rw [if_neg (by omega), if_neg (by omega)]
  · have hs := to_chars_loop_stores_length v.natAbs
      ((detail.to_chars_len T.digits v.natAbs + 2 ^ 32 - 1) % 2 ^ 32)
    rw [htl]
    omega
  · intro mem first last hl hcap
    exact to_chars_ok .uint32 mem first last 4294967295 (by decide) hl hcap
  · intro mem first last hl hcap
    exact to_chars_ok .int32 mem first last (-2147483648) (by decide) hl hcap
  · intro mem first last hl hcap
    exact to_chars_ok .uint64 mem first last 18446744073709551615 (by decide) hl hcap
  · intro mem first last hl hcap
    exact to_chars_ok .int64 mem first last (-9223372036854775808) (by decide) hl hcap

set_option maxRecDepth 8192 in
/-- C20 at `INT64_MIN` encoded into the first 20 bytes of a zero-filled 32-byte buffer: the
call succeeds and the buffer then holds the 20 bytes of `-9223372036854775808` followed by
the 12 zeros it held before. -/
theorem C20_sufficient_buffer_witness :
    IntType.int64.InRange (-9223372036854775808) ∧
    (decimal_text (-9223372036854775808)).length ≤ max_text_length .int64 ∧
    (to_chars .int64 (List.replicate 32 0) 0 20 (-9223372036854775808)).2.ec = errc.ok ∧
    to_chars .int64 (List.replicate 32 0) 0 20 (-9223372036854775808) =
      (write_at (List.replicate 32 0) 0
        [45, 57, 50, 50, 51, 51, 55, 50, 48, 51, 54, 56, 53, 52, 55, 55, 53, 56, 48, 56],
        ⟨0 + 20, errc.ok⟩) ∧
    write_at (List.replicate 32 0) 0
        [45, 57, 50, 50, 51, 51, 55, 50, 48, 51, 54, 56, 53, 52, 55, 55, 53, 56, 48, 56] =
      [45, 57, 50, 50, 51, 51, 55, 50, 48, 51, 54, 56, 53, 52, 55, 55, 53, 56, 48, 56] ++
        List.replicate 12 0 :=
  ⟨by decide,
   (C20_sufficient_buffer .int64 (-9223372036854775808) (by decide)).2.2.2.2.1,
   (C20_sufficient_buffer .int64 (-9223372036854775808) (by decide)).2.2.2.2.2.1
     (List.replicate 32 0) 0 20 (by decide) (by decide),
   (C20_sufficient_buffer .int64 (-9223372036854775808)
     (by decide)).2.2.2.2.2.2.2.2.2.2.2.2.2.2.2.2.2
     (List.replicate 32 0) 0 20 (by decide) (by decide),
   by decide⟩

end rigtorp

namespace rigtorp

open detail

/-! ## Canonical texts -/

theorem digit_char_of_digit (x : Byte) (hx : is_digit x) : digit_char (x.val - 48) = x := by
  have := x.isLt
  unfold is_digit at hx
  apply Fin.ext
  simp only [digit_char, Byte.ofNat]
  omega

/-- Digits without a leading zero are the decimal digits of their value. -/
theorem digits_eq_decimal_digits (body : List Byte) :
    body ≠ [] → (∀ b ∈ body, is_digit b) → body.head? ≠ some 48 →
    1 ≤ text_value body ∧ body = (decimal_digits (text_value body)).map digit_char := by
  induction body using List.reverseRecOn with
  | nil => intro h; exact absurd rfl h
  | append_singleton init x ih =>
    intro _ hd hh
    have hx : is_digit x := hd x (List.mem_append_right _ (List.mem_singleton_self _))
    have hx' := hx
    unfold is_digit at hx'
    have hlt := x.isLt
    rw [text_value_append_singleton]
    by_cases hi : init = []
    · subst hi
      have hx48 : x ≠ 48 := by simpa using hh
      have hv : x.val ≠ 48 := fun h => hx48 (Fin.ext h)
      have e : text_value ([] : List Byte) = 0 := rfl
      rw [e, decimal_digits_eq, if_pos (by omega)]
      refine ⟨by omega, ?_⟩
      simp only [Nat.zero_mul, Nat.zero_add, List.nil_append, List.map_cons, List.map_nil]
      rw [digit_char_of_digit x hx]
    · obtain ⟨h1, h2⟩ := ih hi (fun b hb => hd b (List.mem_append_left _ hb))
        (by
          cases init with
          | nil => exact absurd rfl hi
          | cons a r => simpa using hh)
      refine ⟨by omega, ?_⟩
      rw [decimal_digits_eq, if_neg (by omega)]
      have e1 : (text_value init * 10 + (x.val - 48)) / 10 = text_value init := by omega
      have e2 : (text_value init * 10 + (x.val - 48)) % 10 = x.val - 48 := by omega
      rw [e1, e2, List.map_append, ← h2]
      simp only [List.map_cons, List.map_nil]
      rw [digit_char_of_digit x hx]

/-- A canonical text (no leading zero, never `-0`) is the decimal text of its value. -/
theorem canonical_eq_decimal_text (neg : Bool) (body : List Byte) (hne : body ≠ [])
    (hd : ∀ b ∈ body, is_digit b) (hz : body.head? = some 48 → body = [48])
    (hnz : neg = true → text_value body ≠ 0) :
    decimal_text (sign_of neg * text_value body) = sign_bytes neg ++ body := by
  have hdig : (decimal_digits (text_value body)).map digit_char = body := by
    by_cases hh : body.head? = some 48
    · rw [hz hh]; decide
    · exact (digits_eq_decimal_digits body hne hd hh).2.symm
  rw [decimal_text_eq]
  cases neg
  · have e : sign_of false * (text_value body : Int) = (text_value body : Int) := by
      simp [sign_of]
    have hneg : decide ((text_value body : Int) < 0) = false := by
      rw [decide_eq_false_iff_not]; omega
    rw [e, hneg, Int.natAbs_ofNat, hdig]
  · have h0 := hnz rfl
    have e : sign_of true * (text_value body : Int) = -(text_value body : Int) := by
      simp [sign_of]
    have hneg : decide (-(text_value body : Int) < 0) = true := by
      rw [decide_eq_true_iff]; omega
    rw [e, hneg, Int.natAbs_neg, Int.natAbs_ofNat, hdig]

end rigtorp

namespace rigtorp

/-! ## The claim about decoding and re-encoding -/

/-- C21: reverse round trip. For each of the four types and every accepted input (an optional
`'-'` for signed types only, then one or more digits whose signed value is representable),
decoding with `from_chars` succeeds and re-encoding the decoded value with `to_chars` into a
buffer of sufficient capacity writes the canonical decimal text of that value, which decodes
to the same value again; when the input is itself canonical (no leading zero except the
single digit `0`, and never `-0`), the bytes written are exactly the bytes of the input. -/
theorem C21_reverse_round_trip (T : IntType) (first : Nat) (neg : Bool) (body : List Byte)
    (v₀ : Int) (mem : List Byte) (f l : Nat) (hneg : neg = true → T.is_signed = true)
    (hne : body ≠ []) (hd : ∀ b ∈ body, is_digit b)
    (hr : T.InRange (sign_of neg * text_value body)) (hl : l ≤ mem.length)
    (hcap : f + (decimal_text (sign_of neg * text_value body)).length ≤ l) :
    from_chars T first (sign_bytes neg ++ body) v₀ =
      (sign_of neg * text_value body,
        ⟨first + (sign_bytes neg ++ body).length, errc.ok⟩) ∧
    to_chars T mem f l (from_chars T first (sign_bytes neg ++ body) v₀).1 =
      (write_at mem f (decimal_text (sign_of neg * text_value body)),
        ⟨f + (decimal_text (sign_of neg * text_value body)).length, errc.ok⟩) ∧
    ((to_chars T mem f l (from_chars T first (sign_bytes neg ++ body) v₀).1).1.drop f).take
        (decimal_text (sign_of neg * text_value body)).length =
      decimal_text (sign_of neg * text_value body) ∧
    from_chars T first (decimal_text (sign_of neg * text_value body)) v₀ =
      (sign_of neg * text_value body,
        ⟨first + (decimal_text (sign_of neg * text_value body)).length, errc.ok⟩) ∧
    ((body.head? = some 48 → body = [48]) → (neg = true → text_value body ≠ 0) →
      decimal_text (sign_of neg * text_value body) = sign_bytes neg ++ body ∧
      ((to_chars T mem f l (from_chars T first (sign_bytes neg ++ body) v₀).1).1.drop f).take
          (sign_bytes neg ++ body).length = sign_bytes neg ++ body ∧
      (to_chars T mem f l (from_chars T first (sign_bytes neg ++ body) v₀).1).2 =
        ⟨f + (sign_bytes neg ++ body).length, errc.ok⟩) := by
  unfold from_chars to_chars
  have hdec := from_chars_digits T first neg body v₀ hneg hne hd
    (lt_pow_of_inRange T neg _ hneg hr)
  rw [if_pos hr] at hdec
  rw [hdec]
  simp only
  have henc := to_chars_ok T mem f l _ hr hl hcap
  rw [henc]
  have hslice := slice_write_at mem f (decimal_text (sign_of neg * text_value body))
    (by omega)
  refine ⟨trivial, rfl, hslice, from_chars_decimal_text T first _ v₀ hr, ?_⟩
  intro hz hnz
  have hcan := canonical_eq_decimal_text neg body hne hd hz hnz
  rw [hcan] at hslice
  simp only at hslice ⊢
  rw [hcan]
  exact ⟨rfl, hslice, rfl⟩

set_option maxRecDepth 8192 in
/-- C21 at the non-canonical `"-0"` decoded into an `int32_t` holding 999 and re-encoded at
the start of a zero-filled 32-byte buffer: the value is 0 and the text written is `"0"`. -/
theorem C21_reverse_round_trip_witness :
    (true = true → IntType.int32.is_signed = true) ∧
    ([48] : List Byte) ≠ [] ∧ (∀ b ∈ ([48] : List Byte), is_digit b) ∧
    IntType.int32.InRange (sign_of true * text_value [48]) ∧
    32 ≤ (List.replicate 32 (0 : Byte)).length ∧
    0 + (decimal_text (sign_of true * text_value [48])).length ≤ 32 ∧
    decimal_text (sign_of true * text_value [48]) = [48] ∧
    from_chars .int32 0 (sign_bytes true ++ [48]) 999 =
      (sign_of true * text_value [48],
        ⟨0 + (sign_bytes true ++ ([48] : List Byte)).length, errc.ok⟩) ∧
    to_chars .int32 (List.replicate 32 0) 0 32
        (from_chars .int32 0 (sign_bytes true ++ [48]) 999).1 =
      (write_at (List.replicate 32 0) 0 (decimal_text (sign_of true * text_value [48])),
        ⟨0 + (decimal_text (sign_of true * text_value [48])).length, errc.ok⟩) :=
  ⟨fun _ => rfl, by decide, by decide, by decide, by decide, by decide, by decide,
   (C21_reverse_round_trip .int32 0 true [48] 999 (List.replicate 32 0) 0 32 (fun _ => rfl)
     (by decide) (by decide) (by decide) (by decide) (by decide)).1,
   (C21_reverse_round_trip .int32 0 true [48] 999 (List.replicate 32 0) 0 32 (fun _ => rfl)
     (by decide) (by decide) (by decide) (by decide) (by decide)).2.1⟩

end rigtorp
